import Mathlib

/-!
Verification development for the LazyProject structural index builder
(lazynote/agent/git_agent.py). The Python functions are shallowly embedded
as executable Lean definitions: Python strings become Lean strings handled
at the level of their character lists (Python indexes and compares strings
by code points, which matches the Lean Char list of a String), Python dicts
become insertion-ordered association lists with update-in-place-or-append
assignment, Python exceptions become Except, and the recursive package walk
is given explicit fuel (the Python recursion always terminates on a finite
directory tree; every theorem either fixes a concrete fuel or carries a
sufficient-fuel hypothesis).
-/

namespace LazyNote

/-! ## Character-level models of the Python string primitives -/

/-- Model of the Python str.split(sep) method for a one-character separator:
splits on every occurrence of the separator and keeps empty pieces, so the
result is always nonempty. -/
def splitChars (sep : Char) : List Char → List (List Char)
  | [] => [[]]
  | c :: cs =>
    match splitChars sep cs with
    | [] => [[]]
    | h :: t => if c = sep then [] :: h :: t else (c :: h) :: t

/-- Python s.split(sep) on Lean strings. -/
def pySplit (sep : Char) (s : String) : List String :=
  (splitChars sep s.data).map String.mk

/-- Model of the Python str.startswith method: plain string-prefix test
on code points. -/
def pyStartsWith (s p : String) : Bool := p.data.isPrefixOf s.data

/-- Model of the Python sep.join(parts) method for a one-character
separator, at the character-list level. -/
def joinChars (sep : Char) : List (List Char) → List Char
  | [] => []
  | [l] => l
  | l :: ls => l ++ sep :: joinChars sep ls

/-- Python sep.join(parts) on Lean strings. -/
def pyJoin (sep : Char) (parts : List String) : String :=
  String.mk (joinChars sep (parts.map String.data))

/-- Model of the Python slice s[:k]: the first k code points of s (all of s
when s is shorter). -/
def pyTruncate (s : String) (k : Nat) : String := String.mk (s.data.take k)

/-- Model of the Python str.lstrip(".") call used by the extractor: removes
every leading dot. -/
def lstripDots (s : String) : String := String.mk (s.data.dropWhile (· = '.'))

/-- Code-point lexicographic order on character lists, the order Python
sorted uses on strings. -/
def charListLe : List Char → List Char → Bool
  | [], _ => true
  | _ :: _, [] => false
  | a :: as, b :: bs => if a = b then charListLe as bs else decide (a < b)

/-- Last dot-separated segment of a name, Python name.split(".")[-1]. -/
def lastSegment (s : String) : String := (pySplit '.' s).getLastD ""

/-- Dotted module name of a relative directory path,
rel_path.replace(os.sep, ".") in _gen_module_dict. -/
def dottedName (p : List String) : String := pyJoin '.' p

/-- Immediate-parent dotted name, the Python expression
".".join(module_name.split(".")[:-1]) used by the package-root dedup check
in _gen_module_dict. -/
def parentName (m : String) : String := pyJoin '.' ((pySplit '.' m).dropLast)

/-! ## The Python data model

A loaded module is described by the data the extractor inspects: its
dunder name, its dunder doc, and the members that inspect.getmembers
returns for the class and function predicates. Each member carries the
dunder module attribute used by the ownership test (empty string when the
attribute is missing, matching the getattr default in the source). Method
lists are the functions inspect.getmembers returns on the class object,
which includes inherited methods. -/

structure PyFunc where
  name : String
  moduleAttr : String
  doc : Option String
deriving DecidableEq

structure PyClass where
  name : String
  moduleAttr : String
  doc : Option String
  methods : List PyFunc
deriving DecidableEq

structure PyModule where
  name : String
  doc : Option String
  classes : List PyClass
  functions : List PyFunc
deriving DecidableEq

/-- A Python value as stored in module_dict: an opaque object reference, the
None constant, a string, or a dict with insertion-ordered entries. -/
inductive Val where
  | pyObj
  | pyNone
  | vStr (s : String)
  | vDict (es : List (String × Val))

/-- Dict lookup, first match. -/
def dictLookup : List (String × Val) → String → Option Val
  | [], _ => none
  | (k, v) :: rest, key => if k = key then some v else dictLookup rest key

/-- Python d[k] = v assignment: replace in place when the key exists,
append otherwise. -/
def dictSet : List (String × Val) → String → Val → List (String × Val)
  | [], k, v => [(k, v)]
  | (k1, v1) :: rest, k, v =>
    if k1 = k then (k, v) :: rest else (k1, v1) :: dictSet rest k v

/-- Python dict union-assignment d |= other. -/
def dictMerge (a b : List (String × Val)) : List (String × Val) :=
  b.foldl (fun acc kv => dictSet acc kv.1 kv.2) a

/-- Keys of a dict in insertion order. -/
def dictKeys (es : List (String × Val)) : List String := es.map Prod.fst

/-- The dunder doc attribute of an entity as stored in the dicts: the
string itself or the None constant. -/
def optValDoc : Option String → Val
  | none => Val.pyNone
  | some s => Val.vStr s

/-! ## Entity Extractor: _process_module -/

/-- The local helper _get_abs_name of _process_module:
(f_module_name + "." + obj_name).lstrip("."). -/
def getAbsName (f obj : String) : String := lstripDots (f ++ "." ++ obj)

/-- The method dict built for one class: every function member of the class
object is recorded, keyed by _get_abs_name(name + "." + method_name). The
loop applies no ownership test to methods. -/
def methodDict (f : String) (c : PyClass) : List (String × Val) :=
  c.methods.map fun mf =>
    (getAbsName f (c.name ++ "." ++ mf.name),
     Val.vDict [("doc", optValDoc mf.doc), ("obj", Val.pyObj)])

/-- The c_dict record built for one qualifying class. -/
def classDict (f : String) (c : PyClass) : Val :=
  Val.vDict [("doc", optValDoc c.doc), ("obj", Val.pyObj),
             ("method", Val.vDict (methodDict f c))]

/-- The class loop of _process_module: classes whose dunder module
attribute starts with the module name are assigned into m_dict under
_get_abs_name(name). -/
def addClasses (f mname : String) : List PyClass → List (String × Val) → List (String × Val)
  | [], md => md
  | c :: rest, md =>
    if pyStartsWith c.moduleAttr mname then
      addClasses f mname rest (dictSet md (getAbsName f c.name) (classDict f c))
    else addClasses f mname rest md

/-- The function loop of _process_module: functions passing the same
ownership test are assigned under f_module_name + "." + name (note: this
key is not lstripped in the source). -/
def addFunctions (f mname : String) : List PyFunc → List (String × Val) → List (String × Val)
  | [], md => md
  | fn :: rest, md =>
    if pyStartsWith fn.moduleAttr mname then
      addFunctions f mname rest
        (dictSet md (f ++ "." ++ fn.name)
          (Val.vDict [("doc", optValDoc fn.doc), ("obj", Val.pyObj)]))
    else addFunctions f mname rest md

/-- The inner m_dict of _process_module: it is created as the one-entry
dict containing the obj reference before any member is examined. -/
def moduleInner (m : PyModule) (f : String) : List (String × Val) :=
  addFunctions f m.name m.functions (addClasses f m.name m.classes [("obj", Val.pyObj)])

/-- _process_module(module, f_module_name): returns the entries of the
resulting one-key dict, or the empty dict when m_dict is empty (dead
branch: m_dict always holds the obj entry). -/
def processModule (m : PyModule) (f : String) : List (String × Val) :=
  let md := moduleInner m f
  if md.isEmpty then [] else [(m.name, Val.vDict md)]

/-! ## Package Walker: _process_package -/

/-- The on-disk subtree below a package root, as pkgutil sees it: each node
is a sub-package (with its own forest) or a plain module; loadFails records
whether importing or loading that unit raises. Names are the fully
qualified dotted names that pkgutil.walk_packages yields. -/
inductive PTree where
  | pkg (name : String) (loadFails : Bool) (subs : List PTree)
  | mod (m : PyModule) (loadFails : Bool)

/-- Qualified name of a walked entry. -/
def PTree.qname : PTree → String
  | .pkg n _ _ => n
  | .mod m _ => m.name

/-- One layer of the pre-order enumeration that pkgutil.walk_packages
produces: each entry is yielded, and a package entry is followed by the
walk of its own directory. -/
def walkSpine (rec1 : List PTree → List PTree) : List PTree → List PTree
  | [] => []
  | PTree.mod m fl :: rest => PTree.mod m fl :: walkSpine rec1 rest
  | PTree.pkg n fl s :: rest => PTree.pkg n fl s :: (rec1 s ++ walkSpine rec1 rest)

/-- Fueled pre-order walk of a forest (total on any forest whose depth is
below the fuel). -/
def walkListF : Nat → List PTree → List PTree
  | 0, _ => []
  | f + 1, l => walkSpine (walkListF f) l

/-- The skip_modules list of _gen_module_dict, tested by string prefix
against each walked qualified name. -/
def skipModules : List String := ["docs", "test", "tests"]

/-- Skip test: any(modname.startswith(skip_mod) for skip_mod in skip_modules). -/
def skipName (n : String) : Bool := skipModules.any fun sk => pyStartsWith n sk

/-- Mutable state of the walk loop in _process_package: the children dict,
the module dict, and the local processed_module set (kept as a list). -/
structure WalkSt where
  children : List (String × Val)
  modules : List (String × Val)
  processed : List String

/-- One iteration of the walk loop of _process_package. A package entry
that fails to load raises (load_module is outside the try block); a module
entry that fails to import is caught and skipped; a module entry whose
name extends a processed package name is skipped; otherwise results are
merged with dict union. -/
def stepEntry (rec1 : String → List PTree → Except Unit (List (String × Val)))
    (st : WalkSt) (e : PTree) : Except Unit WalkSt :=
  match e with
  | PTree.pkg n fl subs =>
    if skipName n then .ok st
    else if fl then .error ()
    else
      match rec1 n subs with
      | .error u => .error u
      | .ok entries =>
        .ok ⟨dictMerge st.children entries, st.modules, st.processed ++ [n]⟩
  | PTree.mod m fl =>
    if skipName m.name then .ok st
    else if fl then .ok st
    else if st.processed.any (fun pm => pyStartsWith m.name pm) then .ok st
    else .ok ⟨st.children, dictMerge st.modules (processModule m m.name), st.processed⟩

/-- Error-propagating left fold of the walk loop. -/
def foldEntries (step : WalkSt → PTree → Except Unit WalkSt) :
    WalkSt → List PTree → Except Unit WalkSt
  | st, [] => .ok st
  | st, e :: rest =>
    match step st e with
    | .error u => .error u
    | .ok st2 => foldEntries step st2 rest

/-- _process_package(module, skip_modules) on a loaded package of the given
qualified name with the given sub-forest: walks all descendants in
pre-order, then returns the empty dict when both children and module are
empty, else the one-key dict for the package. Fuel bounds the recursion
depth (the source recursion is bounded by the directory tree). -/
def processPackage : Nat → String → List PTree → Except Unit (List (String × Val))
  | 0, _, _ => .ok []
  | fuel + 1, name, subs =>
    match foldEntries (stepEntry (processPackage fuel)) ⟨[], [], []⟩
        (walkListF (fuel + 1) subs) with
    | .error u => .error u
    | .ok st =>
      if st.children.isEmpty && st.modules.isEmpty then .ok []
      else
        .ok [(name, Val.vDict [("obj", Val.pyObj), ("children", Val.vDict st.children),
                               ("module", Val.vDict st.modules)])]

/-! ## Filesystem Scanner: _gen_module_dict

The os.walk loop is modelled on its post-pruning directory sequence: each
entry is a visited directory (relative path segments, top-down order),
whether it holds an initializer file, whether importing it raises, and the
package forest rooted there. The loose-file branch of the source touches
no claim and is not modelled. -/

structure DirEntry where
  path : List String
  hasInit : Bool
  rootFails : Bool
  subs : List PTree

/-- Scanner state: the accumulated module_dict and the processed_packages
set in emission order. -/
structure ScanSt where
  moduleDict : List (String × Val)
  processed : List String

/-- One os.walk iteration of _gen_module_dict for a directory with an
initializer: import the root (a failure is caught and skipped), skip when
the immediate parent name is already processed, else merge the package
result and record the name. Both the import and _process_package run inside
the try block, and the processed add happens after them. -/
def scanStep (fuel : Nat) (st : ScanSt) (d : DirEntry) : ScanSt :=
  if d.hasInit then
    let mname := dottedName d.path
    if d.rootFails then st
    else if parentName mname ∈ st.processed then st
    else
      match processPackage fuel mname d.subs with
      | .error _ => st
      | .ok entries => ⟨dictMerge st.moduleDict entries, st.processed ++ [mname]⟩
  else st

/-- The full scan loop. -/
def scanDirs (fuel : Nat) : ScanSt → List DirEntry → ScanSt
  | st, [] => st
  | st, d :: rest => scanDirs fuel (scanStep fuel st d) rest

/-- _gen_module_dict: scan every visited directory starting from the empty
module_dict and empty processed set. -/
def genModuleDict (fuel : Nat) (dirs : List DirEntry) : ScanSt :=
  scanDirs fuel ⟨[], []⟩ dirs

/-! ## Doc Index Flattener: _generate_module_doc_dict -/

/-- The add_doc helper: create the key with an empty string when absent,
then append the formatted heading block. -/
def docAppend : List (String × String) → String → String → List (String × String)
  | [], name, text => [(name, text)]
  | (k, v) :: rest, name, text =>
    if k = name then (k, v ++ text) :: rest else (k, v) :: docAppend rest name text

/-- add_doc(name, subname, doc, level) appends
level + " " + subname + ":\n" + (doc or "") + "\n\n" under the key name. -/
def addDoc (dd : List (String × String)) (name subname : String)
    (text : String) (level : String) : List (String × String) :=
  docAppend dd name (level ++ " " ++ subname ++ ":\n" ++ text ++ "\n\n")

/-- The value of info.get("doc", "") followed by the doc-or-empty coercion:
a stored string stays itself, a stored None and a missing key both give the
empty string. -/
def docTextOf (es : List (String × Val)) : String :=
  match dictLookup es "doc" with
  | some (Val.vStr s) => s
  | _ => ""

/-- The walrus test if doc := info.get("doc"): only a present, nonempty
string is truthy. -/
def topDocOf (es : List (String × Val)) : Option String :=
  match dictLookup es "doc" with
  | some (Val.vStr s) => if s = "" then none else some s
  | _ => none

/-- The method loop of _generate_module_doc_dict: each method of a class
entry is appended as a level-3 heading named objLocal.lastSegment under the
module key. -/
def addMethodDocs (moduleName objLocal : String) :
    List (String × String) → List (String × Val) → List (String × String)
  | dd, [] => dd
  | dd, (fname, finfo) :: rest =>
    let txt := match finfo with | Val.vDict fes => docTextOf fes | _ => ""
    addMethodDocs moduleName objLocal
      (addDoc dd moduleName (objLocal ++ "." ++ lastSegment fname) txt "###") rest

/-- The member loop of _generate_module_doc_dict: each dict-valued entry of
a module dict is appended as a level-2 heading under the module key (its
obj entry is not a dict and is skipped), followed by its methods when a
method key is present. -/
def addObjDocs (moduleName : String) :
    List (String × String) → List (String × Val) → List (String × String)
  | dd, [] => dd
  | dd, (objName, objInfo) :: rest =>
    match objInfo with
    | Val.vDict oes =>
      let dd2 := addDoc dd moduleName (lastSegment objName) (docTextOf oes) "##"
      let dd3 := match dictLookup oes "method" with
        | some (Val.vDict mes) => addMethodDocs moduleName (lastSegment objName) dd2 mes
        | _ => dd2
      addObjDocs moduleName dd3 rest
    | _ => addObjDocs moduleName dd rest

/-- The module loop of _generate_module_doc_dict: each module of a package
node gets a level-1 heading whose text is module_info.get("doc", "") (with
the doc-or-empty coercion), then its members. -/
def addModuleDocs : List (String × String) → List (String × Val) → List (String × String)
  | dd, [] => dd
  | dd, (moduleName, moduleInfo) :: rest =>
    match moduleInfo with
    | Val.vDict mes =>
      addModuleDocs (addObjDocs moduleName (addDoc dd moduleName moduleName (docTextOf mes) "#") mes) rest
    | _ => addModuleDocs dd rest

/-- One layer of _generate_module_doc_dict over the top-level entries: a
truthy own doc gives a level-1 heading; a module key adds the module
entries; a children key recurses. -/
def genDocSpine (rec1 : List (String × Val) → List (String × String) → List (String × String)) :
    List (String × Val) → List (String × String) → List (String × String)
  | [], dd => dd
  | (name, info) :: rest, dd =>
    match info with
    | Val.vDict ies =>
      let dd1 := match topDocOf ies with
        | some s => addDoc dd name name s "#"
        | none => dd
      let dd2 := match dictLookup ies "module" with
        | some (Val.vDict mods) => addModuleDocs dd1 mods
        | _ => dd1
      let dd3 := match dictLookup ies "children" with
        | some (Val.vDict chs) => rec1 chs dd2
        | _ => dd2
      genDocSpine rec1 rest dd3
    | _ => genDocSpine rec1 rest dd

/-- _generate_module_doc_dict with fuel for the recursion into children. -/
def genDocDict : Nat → List (String × Val) → List (String × String) → List (String × String)
  | 0, _, dd => dd
  | fuel + 1, ms, dd => genDocSpine (genDocDict fuel) ms dd

/-! ## The get_module_doc tool -/

/-- Lookup in the flat doc index. -/
def lookupStr : List (String × String) → String → Option String
  | [], _ => none
  | (k, v) :: rest, key => if k = key then some v else lookupStr rest key

/-- get_module_doc(module_name): the miss message for an absent key, else
the stored string truncated by the slice [:2000]. -/
def getModuleDoc (docDict : List (String × String)) (name : String) : String :=
  match lookupStr docDict name with
  | none => "Module " ++ name ++ " does not exist"
  | some s => pyTruncate s 2000

/-! ## Index invalidation: _update_module_dict -/

/-- The modules_to_del list: every cached name for which
any(name.startswith(mod) for mod in project_modules) holds. -/
def modulesToDelete (projectMods sysMods : List String) : List String :=
  sysMods.filter fun n => projectMods.any fun p => pyStartsWith n p

/-- The sys.modules entries surviving the eviction loop. -/
def remainingModules (projectMods sysMods : List String) : List String :=
  sysMods.filter fun n => !(projectMods.any fun p => pyStartsWith n p)

/-- Modelled from the spec: the eviction criterion the specification
claims, namely that exactly the names equal to a project unit name or
nested under one as a dotted descendant are discarded. Stated for
comparison with modulesToDelete, which the source derives from a plain
string-prefix test. -/
def claimedEviction (projectMods : List String) (n : String) : Prop :=
  ∃ p ∈ projectMods, n = p ∨ pyStartsWith n (p ++ ".") = true

/-! ## Tree Renderer: _generate_project_tree -/

/-- The nested dict built by the insertion loop of _generate_project_tree. -/
inductive Trie where
  | node (es : List (String × Trie))

/-- Fresh chain of singleton dicts for the unseen tail of a path. -/
def chainOf : List String → Trie
  | [] => .node []
  | p :: ps => .node [(p, chainOf ps)]

/-- Walk the entry list for one segment: descend in place when present,
append the fresh chain when absent. -/
def updateEntry (p : String) (fresh : Trie)
    (upd : List (String × Trie) → List (String × Trie)) :
    List (String × Trie) → List (String × Trie)
  | [] => [(p, fresh)]
  | (k, Trie.node ces) :: rest =>
    if k = p then (k, Trie.node (upd ces)) :: rest
    else (k, Trie.node ces) :: updateEntry p fresh upd rest

/-- The insertion loop of _generate_project_tree for one dotted path. -/
def insertPath : List String → List (String × Trie) → List (String × Trie)
  | [], es => es
  | p :: pt, es => updateEntry p (chainOf pt) (insertPath pt) es

/-- The outer loop: insert every name, splitting on dots. -/
def buildEntries : List String → List (String × Trie) → List (String × Trie)
  | [], es => es
  | n :: ns, es => buildEntries ns (insertPath (pySplit '.' n) es)

/-- Key order used by sorted(tree_dict.items()): code-point order on the
keys (keys are unique, so the tuple comparison never reaches the values). -/
def entryLe (a b : String × Trie) : Prop := charListLe a.1.data b.1.data = true

instance : DecidableRel entryLe := fun a b => by unfold entryLe; infer_instance

/-- sorted(tree_dict.items()). -/
def sortEntries (es : List (String × Trie)) : List (String × Trie) :=
  List.insertionSort entryLe es

/-- The indent string "  " * level. -/
def indentOf : Nat → String
  | 0 => ""
  | n + 1 => "  " ++ indentOf n

/-- process_tree_dict(tree_dict, level): one line per entry in sorted key
order, a trailing slash and a recursive block for entries with children.
Fuel bounds the recursion depth. -/
def processTreeDict : Nat → List (String × Trie) → Nat → List String
  | 0, _, _ => []
  | fuel + 1, es, level =>
    (sortEntries es).flatMap fun e =>
      match e with
      | (name, Trie.node ces) =>
        if ces.isEmpty then [indentOf level ++ "- " ++ name]
        else (indentOf level ++ "- " ++ name ++ "/") :: processTreeDict fuel ces (level + 1)

/-- Fuel that always dominates the depth of the built tree: the total
segment count of all names, plus one. -/
def treeFuel (names : List String) : Nat :=
  (names.map (fun n => (pySplit '.' n).length)).sum + 1

/-- _generate_project_tree(module_list): build the nested dict, render it
from level 0 and join the lines with newlines. -/
def generateProjectTree (names : List String) : String :=
  pyJoin '\n' (processTreeDict (treeFuel names) (buildEntries names []) 0)

/-! ## Analysis-level measures and projections used only to state and prove
the claims (not part of the embedded source). -/

/-- Depth of a trie entry list. -/
def depthE : List (String × Trie) → Nat
  | [] => 0
  | (_, Trie.node c) :: r => max (1 + depthE c) (depthE r)

/-- Node count of a trie entry list. -/
def sizeE : List (String × Trie) → Nat
  | [] => 0
  | (_, Trie.node c) :: r => 1 + sizeE c + sizeE r

/-- Every node path of a trie entry list (the nonempty segment paths it
represents), in entry order. -/
def pathsE : List (String × Trie) → List (List String)
  | [] => []
  | (k, Trie.node c) :: r => [k] :: ((pathsE c).map (k :: ·) ++ pathsE r)

/-- Nonempty prefixes of a segment list. -/
def prefixesOf (segs : List String) : List (List String) :=
  segs.inits.filter fun q => !q.isEmpty

/-- Number of distinct nonempty segment-path prefixes across a list of
dotted names. -/
def distinctPrefixCount (names : List String) : Nat :=
  ((names.map (pySplit '.')).flatMap prefixesOf).dedup.length

/-- Keys of a trie entry list. -/
def trieKeys (es : List (String × Trie)) : List String := es.map Prod.fst

/-- Projection: the children dict of a named top-level entry of a module
dict. -/
def childrenOf (md : List (String × Val)) (name : String) : List (String × Val) :=
  match dictLookup md name with
  | some (Val.vDict es) =>
    match dictLookup es "children" with
    | some (Val.vDict cs) => cs
    | _ => []
  | _ => []

/-- Projection: the module dict of a named top-level entry of a module
dict. -/
def modulesOf (md : List (String × Val)) (name : String) : List (String × Val) :=
  match dictLookup md name with
  | some (Val.vDict es) =>
    match dictLookup es "module" with
    | some (Val.vDict ms) => ms
    | _ => []
  | _ => []

/-- Projection: the method dict stored under a class key of a module inner
dict. -/
def methodMapOf (entries : List (String × Val)) (clsKey : String) : List (String × Val) :=
  match dictLookup entries clsKey with
  | some (Val.vDict ces) =>
    match dictLookup ces "method" with
    | some (Val.vDict mes) => mes
    | _ => []
  | _ => []

/-- Projection: the inner dict of the single module entry that
processModule returns. -/
def innerOf (entries : List (String × Val)) (name : String) : List (String × Val) :=
  match dictLookup entries name with
  | some (Val.vDict es) => es
  | _ => []

/-! ## Concrete scenario data used by the claims -/

/-- The save method of the User class in the spec scenario. -/
def userSave : PyFunc := ⟨"save", "app.models", some "Persists the user"⟩

/-- The User class of the spec scenario (no class docstring). -/
def userClass : PyClass := ⟨"User", "app.models", none, [userSave]⟩

/-- The app.models module of the spec scenario, with module docstring
User model module. -/
def appModels : PyModule := ⟨"app.models", some "User model module", [userClass], []⟩

/-- The scanned directory list of the spec scenario: one package app
containing the single module app.models. -/
def appDirs : List DirEntry := [⟨["app"], true, false, [PTree.mod appModels false]⟩]

/-- The doc index the pipeline produces for the spec scenario. -/
def appDocs : List (String × String) :=
  genDocDict 10 (genModuleDict 10 appDirs).moduleDict []

/-- A module whose every class and function is declared elsewhere
(a pure re-export module). -/
def foreignOnlyModule : PyModule :=
  ⟨"app.util", none,
   [⟨"Helper", "thirdparty.helpers", some "Imported class", []⟩],
   [⟨"reexported", "thirdparty.funcs", none⟩]⟩

/-- A method inherited from a base class declared in a foreign unit: its
declaring-unit attribute names the foreign library. -/
def inheritedMeth : PyFunc := ⟨"rescue", "foreignlib.base", some "Inherited doc"⟩

/-- A class owned by pkg.m whose only member function is the inherited,
foreign-declared method. -/
def childClass : PyClass := ⟨"Child", "pkg.m", none, [inheritedMeth]⟩

/-- The module pkg.m declaring childClass. -/
def childModule : PyModule := ⟨"pkg.m", none, [childClass], []⟩

/-- A function-bearing module nested three package levels deep. -/
def deepModule : PyModule := ⟨"a.b.c.d", none, [], [⟨"handler", "a.b.c.d", some "handles"⟩]⟩

/-- Forest below a.b.c. -/
def abcForest : List PTree := [PTree.mod deepModule false]

/-- Forest below a.b. -/
def abForest : List PTree := [PTree.pkg "a.b.c" false abcForest]

/-- Forest below a. -/
def aForest : List PTree := [PTree.pkg "a.b" false abForest]

/-- Scanner input for the three-level nested package layout a, a.b,
a.b.c (all with initializer files), visited top-down by os.walk. -/
def nestedDirs : List DirEntry :=
  [⟨["a"], true, false, aForest⟩,
   ⟨["a", "b"], true, false, abForest⟩,
   ⟨["a", "b", "c"], true, false, abcForest⟩]

/-- Scanner result on the nested layout. -/
def nestedScan : ScanSt := genModuleDict 10 nestedDirs

/-- A healthy plain module inside package r. -/
def goodModule : PyModule := ⟨"r.good", none, [], [⟨"g", "r.good", some "good func"⟩]⟩

/-- Forest of package r: a sub-package whose load raises, next to a healthy
sibling module. -/
def failForest : List PTree := [PTree.pkg "r.bad" true [], PTree.mod goodModule false]

/-- A plain module whose import raises. -/
def sickModule : PyModule := ⟨"r.sick", none, [], []⟩

/-! ## Order instances for the sort used by the renderer -/

instance : IsTotal (String × Trie) entryLe := by
  constructor
  intro a b
  show charListLe a.1.data b.1.data = true ∨ charListLe b.1.data a.1.data = true
  generalize a.1.data = as
  generalize b.1.data = bs
  induction as generalizing bs with
  | nil => left; rfl
  | cons x xs ih =>
    cases bs with
    | nil => right; rfl
    | cons y ys =>
      by_cases hxy : x = y
      · subst hxy
        rcases ih ys with h | h
        · left; simpa [charListLe] using h
        · right; simpa [charListLe] using h
      · rcases lt_trichotomy x y with h | h | h
        · left; simp [charListLe, hxy, h]
        · exact absurd h hxy
        · right
          have hyx : y ≠ x := fun hy => hxy hy.symm
          simp [charListLe, hyx, h, not_lt_of_gt h]

instance : IsTrans (String × Trie) entryLe := by
  constructor
  intro a b c
  show charListLe a.1.data b.1.data = true → charListLe b.1.data c.1.data = true →
    charListLe a.1.data c.1.data = true
  generalize a.1.data = as
  generalize b.1.data = bs
  generalize c.1.data = cs
  induction as generalizing bs cs with
  | nil => intro _ _; rfl
  | cons x xs ih =>
    intro h1 h2
    cases bs with
    | nil => simp [charListLe] at h1
    | cons y ys =>
      cases cs with
      | nil => simp [charListLe] at h2
      | cons z zs =>
        simp only [charListLe] at h1 h2 ⊢
        by_cases hxy : x = y <;> by_cases hyz : y = z
        · subst hxy; subst hyz
          simp only [if_pos rfl] at h1 h2 ⊢
          exact ih ys zs h1 h2
        · subst hxy
          simp only [if_pos rfl] at h1
          simp only [if_neg hyz] at h2 ⊢
          exact h2
        · subst hyz
          simp only [if_neg hxy] at h1 ⊢
          exact h1
        · simp only [if_neg hxy] at h1
          simp only [if_neg hyz] at h2
          have hl1 : x < y := of_decide_eq_true h1
          have hl2 : y < z := of_decide_eq_true h2
          have hxz : x < z := lt_trans hl1 hl2
          have hne : x ≠ z := ne_of_lt hxz
          simp [hne, hxz]

/-! ## Helper lemmas -/

theorem string_mk_data (s : String) : String.mk s.data = s := rfl

theorem dot_mem_append_data (f x : String) : '.' ∈ (f ++ "." ++ x).data := by
  simp [String.data_append]

theorem append_dot_ne_doc (f x : String) : f ++ "." ++ x ≠ "doc" := by
  intro h
  have hm : '.' ∈ (f ++ "." ++ x).data := dot_mem_append_data f x
  rw [h] at hm
  simp at hm

theorem getAbsName_clean (f x : String) (hne : f ≠ "") (hdot : f.data.head? ≠ some '.') :
    getAbsName f x = f ++ "." ++ x := by
  unfold getAbsName lstripDots
  rcases hd : f.data with _ | ⟨c, t⟩
  · exact absurd (String.ext hd) hne
  · have hc : ¬(c = '.') := by
      intro h
      exact hdot (by rw [hd, h]; rfl)
    apply String.ext
    simp [String.data_append, hd, List.dropWhile_cons, hc]

theorem getAbsName_clean_ne_doc (f x : String) (hne : f ≠ "") (hdot : f.data.head? ≠ some '.') :
    getAbsName f x ≠ "doc" := by
  rw [getAbsName_clean f x hne hdot]
  exact append_dot_ne_doc f x

theorem dictLookup_dictSet_ne (md : List (String × Val)) (k key : String) (v : Val)
    (h : k ≠ key) : dictLookup (dictSet md k v) key = dictLookup md key := by
  induction md with
  | nil => simp [dictSet, dictLookup, h]
  | cons hd tl ih =>
    rcases hd with ⟨k1, v1⟩
    by_cases h1 : k1 = k
    · subst h1
      simp [dictSet, dictLookup, h]
    · simp [dictSet, dictLookup, h1, ih]

theorem addClasses_lookup_doc (f mname : String) (cs : List PyClass)
    (md : List (String × Val)) (hne : f ≠ "") (hdot : f.data.head? ≠ some '.') :
    dictLookup (addClasses f mname cs md) "doc" = dictLookup md "doc" := by
  induction cs generalizing md with
  | nil => rfl
  | cons c rest ih =>
    by_cases h : pyStartsWith c.moduleAttr mname = true
    · simp only [addClasses, h, if_pos]
      rw [ih, dictLookup_dictSet_ne]
      exact getAbsName_clean_ne_doc f c.name hne hdot
    · simp only [addClasses, h]
      rw [if_neg (by simp)]
      exact ih md

theorem addFunctions_lookup_doc (f mname : String) (fns : List PyFunc)
    (md : List (String × Val)) :
    dictLookup (addFunctions f mname fns md) "doc" = dictLookup md "doc" := by
  induction fns generalizing md with
  | nil => rfl
  | cons fn rest ih =>
    by_cases h : pyStartsWith fn.moduleAttr mname = true
    · simp only [addFunctions, h, if_pos]
      rw [ih, dictLookup_dictSet_ne]
      exact append_dot_ne_doc f fn.name
    · simp only [addFunctions, h]
      rw [if_neg (by simp)]
      exact ih md

theorem dictSet_ne_nil (md : List (String × Val)) (k : String) (v : Val) :
    dictSet md k v ≠ [] := by
  cases md with
  | nil => simp [dictSet]
  | cons hd tl =>
    rcases hd with ⟨k1, v1⟩
    by_cases h : k1 = k <;> simp [dictSet, h]

theorem addClasses_ne_nil (f mname : String) (cs : List PyClass)
    (md : List (String × Val)) (h : md ≠ []) : addClasses f mname cs md ≠ [] := by
  induction cs generalizing md with
  | nil => exact h
  | cons c rest ih =>
    by_cases hc : pyStartsWith c.moduleAttr mname = true
    · simp only [addClasses, hc, if_pos]
      exact ih _ (dictSet_ne_nil _ _ _)
    · simp only [addClasses, hc]
      rw [if_neg (by simp)]
      exact ih md h

theorem addFunctions_ne_nil (f mname : String) (fns : List PyFunc)
    (md : List (String × Val)) (h : md ≠ []) : addFunctions f mname fns md ≠ [] := by
  induction fns generalizing md with
  | nil => exact h
  | cons fn rest ih =>
    by_cases hc : pyStartsWith fn.moduleAttr mname = true
    · simp only [addFunctions, hc, if_pos]
      exact ih _ (dictSet_ne_nil _ _ _)
    · simp only [addFunctions, hc]
      rw [if_neg (by simp)]
      exact ih md h

theorem moduleInner_ne_nil (m : PyModule) (f : String) : moduleInner m f ≠ [] :=
  addFunctions_ne_nil _ _ _ _ (addClasses_ne_nil _ _ _ _ (by simp))

theorem processModule_eq (m : PyModule) (f : String) :
    processModule m f = [(m.name, Val.vDict (moduleInner m f))] := by
  unfold processModule
  rw [if_neg]
  simp [List.isEmpty_iff, moduleInner_ne_nil]

theorem innerOf_single (name : String) (es : List (String × Val)) :
    innerOf [(name, Val.vDict es)] name = es := by
  unfold innerOf
  simp [dictLookup]

theorem addClasses_foreign (f mname : String) (cs : List PyClass)
    (md : List (String × Val)) (h : ∀ c ∈ cs, pyStartsWith c.moduleAttr mname = false) :
    addClasses f mname cs md = md := by
  induction cs with
  | nil => rfl
  | cons c rest ih =>
    have hc := h c (by simp)
    simp only [addClasses, hc]
    rw [if_neg (by simp)]
    exact ih fun c2 h2 => h c2 (by simp [h2])

theorem addFunctions_foreign (f mname : String) (fns : List PyFunc)
    (md : List (String × Val)) (h : ∀ fn ∈ fns, pyStartsWith fn.moduleAttr mname = false) :
    addFunctions f mname fns md = md := by
  induction fns with
  | nil => rfl
  | cons fn rest ih =>
    have hc := h fn (by simp)
    simp only [addFunctions, hc]
    rw [if_neg (by simp)]
    exact ih fun fn2 h2 => h fn2 (by simp [h2])

/-! ## Claim theorems -/

/-- C2: the claim states that a module in which no class or function passes
the ownership test yields an empty extraction result and is omitted from
the Structural Graph. The code contradicts this: m_dict is initialized with
the obj entry before any member is examined, so the emptiness check in
_process_module is dead code and the module (and its enclosing package)
always contributes an entry. Evaluating the embedded code at a module whose
members are all foreign shows the nonempty result. -/
theorem claim_C2_eval :
    processModule foreignOnlyModule "app.util" = [("app.util", Val.vDict [("obj", Val.pyObj)])] ∧
    processModule foreignOnlyModule "app.util" ≠ [] ∧
    processPackage 5 "app" [PTree.mod foreignOnlyModule false] =
      .ok [("app", Val.vDict [("obj", Val.pyObj), ("children", Val.vDict []),
            ("module", Val.vDict [("app.util", Val.vDict [("obj", Val.pyObj)])])])] := by
  refine ⟨rfl, ?_, rfl⟩
  intro h
  rw [processModule_eq] at h
  simp at h

/-- C3: the claim states the Doc Index entry for app.models begins with the
level-1 heading followed by the module docstring User model module. In the
code, _process_module never stores the module docstring (m_dict has no doc
key), so the flattener always emits an empty text after the module heading.
The actual entry differs from the claimed one exactly there. -/
theorem claim_C3_counterexample :
    lookupStr appDocs "app.models" =
      some "# app.models:\n\n\n## User:\n\n\n### User.save:\nPersists the user\n\n" ∧
    lookupStr appDocs "app.models" ≠
      some "# app.models:\nUser model module\n\n## User:\n\n\n### User.save:\nPersists the user\n\n" := by
  refine ⟨by decide, by decide⟩

/-- C3 amended: the inner dict of every extracted module has no doc key
(for any nonempty, dot-free module-name prefix as produced by the walker),
so the level-1 heading of a module is always followed by empty text; on the
spec scenario the entry is the one with the empty module-doc segment. -/
theorem claim_C3_amended :
    (∀ (m : PyModule) (f : String), f ≠ "" → f.data.head? ≠ some '.' →
      dictLookup (innerOf (processModule m f) m.name) "doc" = none) ∧
    lookupStr appDocs "app.models" =
      some "# app.models:\n\n\n## User:\n\n\n### User.save:\nPersists the user\n\n" := by
  constructor
  · intro m f hne hdot
    rw [processModule_eq, innerOf_single]
    unfold moduleInner
    rw [addFunctions_lookup_doc, addClasses_lookup_doc _ _ _ _ hne hdot]
    rfl
  · decide

theorem claim_C3_witness :
    dictLookup (innerOf (processModule appModels "app.models") "app.models") "doc" = none ∧
    lookupStr appDocs "app.models" =
      some "# app.models:\n\n\n## User:\n\n\n### User.save:\nPersists the user\n\n" :=
  ⟨claim_C3_amended.1 appModels "app.models" (by decide) (by decide), claim_C3_amended.2⟩

/-- C4: the claim states each extracted method is keyed ClassName.methodName
with no module-name prefix. In the code the key is
_get_abs_name(name + "." + method_name), which prepends the full module
prefix: in the spec scenario the stored key is app.models.User.save and
User.save is absent. -/
theorem claim_C4_counterexample :
    dictKeys (methodMapOf (innerOf (processModule appModels "app.models") "app.models")
      "app.models.User") = ["app.models.User.save"] ∧
    "User.save" ∉ dictKeys (methodMapOf (innerOf (processModule appModels "app.models")
      "app.models") "app.models.User") := by
  refine ⟨rfl, by decide⟩

/-- C4 amended: each extracted method of a class is stored under the key
f_module_name.ClassName.methodName (for the nonempty, dot-free module
prefixes the package walker passes); the unprefixed ClassName.methodName
form only arises for the empty prefix of loose top-level files. -/
theorem claim_C4_amended (f : String) (c : PyClass)
    (hne : f ≠ "") (hdot : f.data.head? ≠ some '.') :
    dictKeys (methodDict f c) = c.methods.map fun mf => f ++ "." ++ c.name ++ "." ++ mf.name := by
  unfold methodDict dictKeys
  rw [List.map_map]
  apply List.map_congr_left
  intro mf _
  show getAbsName f (c.name ++ "." ++ mf.name) = f ++ "." ++ c.name ++ "." ++ mf.name
  rw [getAbsName_clean _ _ hne hdot]
  apply String.ext
  simp [String.data_append]

theorem claim_C4_witness :
    dictKeys (methodDict "app.models" userClass) =
      userClass.methods.map (fun mf => "app.models" ++ "." ++ userClass.name ++ "." ++ mf.name) :=
  claim_C4_amended "app.models" userClass (by decide) (by decide)

/-- C5: the claim states the ownership test is also applied to methods, so
foreign-declared (inherited) methods are excluded from the method mapping.
The method loop of _process_module applies no ownership test: a method whose
declaring-unit attribute names a foreign library is still recorded. -/
theorem claim_C5_counterexample :
    dictKeys (methodMapOf (innerOf (processModule childModule "pkg.m") "pkg.m") "pkg.m.Child")
      = ["pkg.m.Child.rescue"] ∧
    pyStartsWith inheritedMeth.moduleAttr childModule.name = false := by
  exact ⟨rfl, rfl⟩

/-- C5 amended: the ownership test (string-prefix match of the declaring
attribute against the module name) applies to module-level classes and
functions, so a pure re-export module yields only the obj entry; methods of
a qualifying class are recorded unconditionally, with no ownership test. -/
theorem claim_C5_amended :
    (∀ (m : PyModule) (f : String),
      (∀ c ∈ m.classes, pyStartsWith c.moduleAttr m.name = false) →
      (∀ fn ∈ m.functions, pyStartsWith fn.moduleAttr m.name = false) →
      processModule m f = [(m.name, Val.vDict [("obj", Val.pyObj)])]) ∧
    (∀ (f : String) (c : PyClass) (mf : PyFunc), mf ∈ c.methods →
      (getAbsName f (c.name ++ "." ++ mf.name),
       Val.vDict [("doc", optValDoc mf.doc), ("obj", Val.pyObj)]) ∈ methodDict f c) := by
  constructor
  · intro m f hc hf
    rw [processModule_eq]
    unfold moduleInner
    rw [addClasses_foreign _ _ _ _ hc, addFunctions_foreign _ _ _ _ hf]
  · intro f c mf hmf
    unfold methodDict
    exact List.mem_map.mpr ⟨mf, hmf, rfl⟩

theorem claim_C5_witness :
    processModule foreignOnlyModule "app.util" = [("app.util", Val.vDict [("obj", Val.pyObj)])] ∧
    (getAbsName "pkg.m" (childClass.name ++ "." ++ inheritedMeth.name),
     Val.vDict [("doc", optValDoc inheritedMeth.doc), ("obj", Val.pyObj)]) ∈
      methodDict "pkg.m" childClass :=
  ⟨claim_C5_amended.1 foreignOnlyModule "app.util" (by decide) (by decide),
   claim_C5_amended.2 "pkg.m" childClass inheritedMeth (by decide)⟩

/-- C7: the claim states eviction touches exactly the dotted descendants of
project unit names and spares mere string-prefix lookalikes such as app2.
The code tests name.startswith(mod) on the raw strings, so app2 is evicted
when the project owns app. -/
theorem claim_C7_counterexample :
    modulesToDelete ["app"] ["app2", "app.models", "numpy"] = ["app2", "app.models"] ∧
    ¬ claimedEviction ["app"] "app2" := by
  constructor
  · rfl
  · unfold claimedEviction
    decide

/-- C7 amended: eviction removes exactly the cached names that have some
project unit name as a plain string prefix (thus including lookalikes such
as app2 under project app), and the survivors are exactly the names with no
project unit name as a string prefix. -/
theorem claim_C7_amended (pm sm : List String) (n : String) :
    (n ∈ modulesToDelete pm sm ↔ n ∈ sm ∧ ∃ p ∈ pm, pyStartsWith n p = true) ∧
    (n ∈ remainingModules pm sm ↔ n ∈ sm ∧ ∀ p ∈ pm, pyStartsWith n p = false) := by
  constructor
  · simp [modulesToDelete, List.mem_filter, List.any_eq_true]
  · simp [remainingModules, List.mem_filter]

/-- C9: in the rendered tree siblings appear in sorted key order at every
level (the renderer sorts every entry list it expands), inner nodes carry a
trailing slash with children indented two further spaces, leaves carry no
slash, and the single name app.models renders exactly as claimed. -/
theorem claim_C9 :
    generateProjectTree ["app.models"] = "- app/\n  - models" ∧
    generateProjectTree ["b.x", "a", "b.a"] = "- a\n- b/\n  - a\n  - x" ∧
    ∀ es : List (String × Trie), List.Pairwise entryLe (sortEntries es) :=
  ⟨by decide, by decide, fun es => List.sorted_insertionSort entryLe es⟩

/-- C10: the get_module_doc tool is a total function that returns the
does-not-exist message for an absent key and otherwise the stored string
cut to its first 2000 code points (a prefix of length at most 2000); the
stored index is not mutated (the model is pure). -/
theorem claim_C10 (dd : List (String × String)) (n : String) :
    (lookupStr dd n = none → getModuleDoc dd n = "Module " ++ n ++ " does not exist") ∧
    (∀ s, lookupStr dd n = some s →
      getModuleDoc dd n = pyTruncate s 2000 ∧
      (getModuleDoc dd n).length ≤ 2000 ∧
      (getModuleDoc dd n).data <+: s.data) := by
  constructor
  · intro h
    unfold getModuleDoc
    rw [h]
  · intro s h
    unfold getModuleDoc
    rw [h]
    refine ⟨rfl, ?_, ?_⟩
    · show (s.data.take 2000).length ≤ 2000
      simp [List.length_take]
    · exact List.take_prefix 2000 s.data

theorem claim_C10_witness :
    getModuleDoc [("app.models", "Doc body")] "nope" = "Module nope does not exist" ∧
    getModuleDoc [("app.models", "Doc body")] "app.models" = pyTruncate "Doc body" 2000 :=
  ⟨(claim_C10 [("app.models", "Doc body")] "nope").1 rfl,
   ((claim_C10 [("app.models", "Doc body")] "app.models").2 "Doc body" rfl).1⟩

/-! ## Scanner dedup (C1) -/

theorem scanStep_processed_pairwise (fuel : Nat) (st : ScanSt) (d : DirEntry)
    (h : List.Pairwise (fun a b => parentName b ≠ a) st.processed) :
    List.Pairwise (fun a b => parentName b ≠ a) (scanStep fuel st d).processed := by
  unfold scanStep
  by_cases h1 : d.hasInit = true
  · simp only [h1, if_true]
    by_cases h2 : d.rootFails = true
    · simpa [h2] using h
    · simp only [h2]
      rw [if_neg (by simp)]
      by_cases h3 : parentName (dottedName d.path) ∈ st.processed
      · simpa [h3] using h
      · rw [if_neg h3]
        cases hp : processPackage fuel (dottedName d.path) d.subs with
        | error u => exact h
        | ok entries =>
          show List.Pairwise _ (st.processed ++ [dottedName d.path])
          rw [List.pairwise_append]
          refine ⟨h, List.pairwise_singleton _ _, ?_⟩
          intro a ha b hb
          rw [List.mem_singleton.mp hb]
          intro hcontra
          exact h3 (hcontra ▸ ha)
  · simpa [h1] using h

theorem scanDirs_processed_pairwise (fuel : Nat) (dirs : List DirEntry) :
    ∀ st : ScanSt, List.Pairwise (fun a b => parentName b ≠ a) st.processed →
    List.Pairwise (fun a b => parentName b ≠ a) (scanDirs fuel st dirs).processed := by
  induction dirs with
  | nil => intro st h; exact h
  | cons d rest ih =>
    intro st h
    exact ih _ (scanStep_processed_pairwise fuel st d h)

/-- C1: the claim states every package unit is folded into the Structural
Graph at most once, even for nesting of three or more levels. On the layout
a, a.b, a.b.c (all packages), a is emitted and merges its whole subtree;
a.b is skipped without being recorded; a.b.c then fails the parent-only
check and is emitted again as its own top-level entry while it already sits
inside the merged subtree of a (twice, in fact, since the walker also
re-merges deep descendants). -/
theorem claim_C1_counterexample :
    dictKeys nestedScan.moduleDict = ["a", "a.b.c"] ∧
    "a.b.c" ∈ dictKeys (childrenOf nestedScan.moduleDict "a") ∧
    dictKeys (modulesOf nestedScan.moduleDict "a.b.c") = ["a.b.c.d"] :=
  ⟨by decide, by decide, by decide⟩

/-- C1 amended: the scanner dedup only guarantees the immediate-parent
property: in every discovery pass, no emitted package root is the immediate
dotted parent of a later emitted root. Full-ancestry dedup fails (see the
counterexample), so units nested at depth two or more below an emitted root
can be re-emitted. -/
theorem claim_C1_amended (fuel : Nat) (dirs : List DirEntry) :
    List.Pairwise (fun a b => parentName b ≠ a) (genModuleDict fuel dirs).processed :=
  scanDirs_processed_pairwise fuel dirs ⟨[], []⟩ List.Pairwise.nil

/-! ## Failure isolation in the package walker (C6) -/

theorem walkListF_nil (f : Nat) : walkListF f [] = [] := by cases f <;> rfl

theorem walkListF_cons_mod (f : Nat) (m : PyModule) (fl : Bool) (t : List PTree) :
    walkListF (f + 1) (PTree.mod m fl :: t) = PTree.mod m fl :: walkListF (f + 1) t := rfl

theorem walkListF_cons_pkg (f : Nat) (n : String) (fl : Bool) (s t : List PTree) :
    walkListF (f + 1) (PTree.pkg n fl s :: t) =
      PTree.pkg n fl s :: (walkListF f s ++ walkListF (f + 1) t) := rfl

theorem walkSpine_append (rec1 : List PTree → List PTree) (l1 l2 : List PTree) :
    walkSpine rec1 (l1 ++ l2) = walkSpine rec1 l1 ++ walkSpine rec1 l2 := by
  induction l1 with
  | nil => rfl
  | cons e t ih =>
    cases e with
    | mod m fl => simp [walkSpine, ih]
    | pkg n fl s => simp [walkSpine, ih]

theorem walkListF_append (f : Nat) (l1 l2 : List PTree) :
    walkListF (f + 1) (l1 ++ l2) = walkListF (f + 1) l1 ++ walkListF (f + 1) l2 :=
  walkSpine_append (walkListF f) l1 l2

theorem stepEntry_mod_true (rec1 : String → List PTree → Except Unit (List (String × Val)))
    (st : WalkSt) (m : PyModule) :
    stepEntry rec1 st (PTree.mod m true) = .ok st := by
  by_cases h : skipName m.name = true <;> simp [stepEntry, h]

theorem foldEntries_append (step : WalkSt → PTree → Except Unit WalkSt)
    (l1 l2 : List PTree) : ∀ st,
    foldEntries step st (l1 ++ l2) =
      (foldEntries step st l1).bind fun st2 => foldEntries step st2 l2 := by
  induction l1 with
  | nil => intro st; rfl
  | cons e t ih =>
    intro st
    simp only [List.cons_append, foldEntries]
    cases step st e with
    | error u => rfl
    | ok st2 => exact ih st2

theorem processPackage_mod_failure_frame (fuel : Nat) (name : String)
    (pre post : List PTree) (m : PyModule) :
    processPackage fuel name (pre ++ PTree.mod m true :: post) =
      processPackage fuel name (pre ++ post) := by
  cases fuel with
  | zero => rfl
  | succ f =>
    have hfold : foldEntries (stepEntry (processPackage f)) ⟨[], [], []⟩
        (walkListF (f + 1) (pre ++ PTree.mod m true :: post)) =
        foldEntries (stepEntry (processPackage f)) ⟨[], [], []⟩
        (walkListF (f + 1) (pre ++ post)) := by
      rw [walkListF_append, walkListF_append, walkListF_cons_mod,
          foldEntries_append, foldEntries_append]
      congr 1
      funext st2
      simp only [foldEntries, stepEntry_mod_true]
    simp only [processPackage, hfold]

theorem stepEntry_pkg_fail (rec1 : String → List PTree → Except Unit (List (String × Val)))
    (st : WalkSt) (n : String) (s : List PTree) (h : skipName n = false) :
    stepEntry rec1 st (PTree.pkg n true s) = .error () := by
  simp [stepEntry, h]

theorem foldEntries_error_of_mem (step : WalkSt → PTree → Except Unit WalkSt)
    (l : List PTree) (e : PTree) (he : e ∈ l) (herr : ∀ st, step st e = .error ()) :
    ∀ st, foldEntries step st l = .error () := by
  induction l with
  | nil => cases he
  | cons h0 t ih =>
    intro st
    rcases List.mem_cons.mp he with rfl | hmem
    · simp [foldEntries, herr st]
    · simp only [foldEntries]
      cases hst : step st h0 with
      | error u => cases u; rfl
      | ok st2 => exact ih hmem st2

theorem processPackage_pkg_failure_aborts (fuel : Nat) (name : String) (subs : List PTree)
    (n : String) (s : List PTree)
    (hmem : PTree.pkg n true s ∈ walkListF (fuel + 1) subs) (hskip : skipName n = false) :
    processPackage (fuel + 1) name subs = .error () := by
  simp only [processPackage]
  rw [foldEntries_error_of_mem _ _ _ hmem (fun st => stepEntry_pkg_fail _ st n s hskip)]

theorem walkListF_succ_mono (f : Nat) : ∀ (l : List PTree) (x : PTree),
    x ∈ walkListF f l → x ∈ walkListF (f + 1) l := by
  induction f with
  | zero => intro l x h; simp [walkListF] at h
  | succ g ih =>
    intro l x h
    induction l with
    | nil => simp [walkListF_nil] at h
    | cons e t iht =>
      cases e with
      | mod m fl =>
        rw [walkListF_cons_mod] at h ⊢
        rcases List.mem_cons.mp h with rfl | hmem
        · exact List.mem_cons_self _ _
        · exact List.mem_cons_of_mem _ (iht hmem)
      | pkg n fl s =>
        rw [walkListF_cons_pkg] at h ⊢
        rcases List.mem_cons.mp h with rfl | hmem
        · exact List.mem_cons_self _ _
        · rcases List.mem_append.mp hmem with hs | ht
          · exact List.mem_cons_of_mem _ (List.mem_append_left _ (ih s x hs))
          · exact List.mem_cons_of_mem _ (List.mem_append_right _ (iht ht))

theorem walkListF_le_mono {f g : Nat} (hfg : f ≤ g) (l : List PTree) (x : PTree)
    (h : x ∈ walkListF f l) : x ∈ walkListF g l := by
  induction hfg with
  | refl => exact h
  | step _ ih => exact walkListF_succ_mono _ _ _ ih

theorem walk_mem_trans : ∀ (f1 : Nat) (l : List PTree) (n : String) (fl : Bool)
    (s : List PTree) (x : PTree) (f2 : Nat),
    PTree.pkg n fl s ∈ walkListF f1 l → x ∈ walkListF f2 s → x ∈ walkListF (f1 + f2) l := by
  intro f1
  induction f1 with
  | zero => intro l n fl s x f2 h _; simp [walkListF] at h
  | succ g ih =>
    intro l n fl s x f2 hp hx
    induction l with
    | nil => simp [walkListF_nil] at hp
    | cons e t iht =>
      have harith : g + 1 + f2 = (g + f2) + 1 := by omega
      cases e with
      | mod m mfl =>
        rw [walkListF_cons_mod] at hp
        rcases List.mem_cons.mp hp with heq | hmem
        · cases heq
        · rw [harith, walkListF_cons_mod]
          have := iht hmem
          rw [harith] at this
          exact List.mem_cons_of_mem _ this
      | pkg n2 fl2 s2 =>
        rw [walkListF_cons_pkg] at hp
        rcases List.mem_cons.mp hp with heq | hmem
        · cases heq
          rw [harith, walkListF_cons_pkg]
          refine List.mem_cons_of_mem _ (List.mem_append_left _ ?_)
          exact walkListF_le_mono (by omega) s x hx
        · rcases List.mem_append.mp hmem with hs | ht
          · have := ih s2 n fl s x f2 hs hx
            rw [harith, walkListF_cons_pkg]
            exact List.mem_cons_of_mem _ (List.mem_append_left _ this)
          · have := iht ht
            rw [harith] at this ⊢
            rw [walkListF_cons_pkg]
            exact List.mem_cons_of_mem _ (List.mem_append_right _ this)

theorem stepEntry_mod_ok (rec1 : String → List PTree → Except Unit (List (String × Val)))
    (st : WalkSt) (m : PyModule) (fl : Bool) :
    ∃ st2, stepEntry rec1 st (PTree.mod m fl) = .ok st2 := by
  simp only [stepEntry]
  split
  · exact ⟨st, rfl⟩
  · split
    · exact ⟨st, rfl⟩
    · split
      · exact ⟨st, rfl⟩
      · exact ⟨_, rfl⟩

theorem foldEntries_ok_of_steps (step : WalkSt → PTree → Except Unit WalkSt)
    (l : List PTree) (h : ∀ st e, e ∈ l → ∃ st2, step st e = .ok st2) :
    ∀ st, ∃ stF, foldEntries step st l = .ok stF := by
  induction l with
  | nil => intro st; exact ⟨st, rfl⟩
  | cons e t ih =>
    intro st
    obtain ⟨st2, hst2⟩ := h st e (by simp)
    obtain ⟨stF, hF⟩ := ih (fun st3 e2 he2 => h st3 e2 (by simp [he2])) st2
    exact ⟨stF, by simp [foldEntries, hst2, hF]⟩

theorem processPackage_ok_of_no_pkg_failure : ∀ (fuel : Nat) (name : String)
    (subs : List PTree),
    (∀ (f : Nat) (n : String) (s : List PTree),
      PTree.pkg n true s ∈ walkListF f subs → skipName n = true) →
    ∃ v, processPackage fuel name subs = .ok v := by
  intro fuel
  induction fuel with
  | zero => intro name subs _; exact ⟨[], rfl⟩
  | succ g ih =>
    intro name subs h
    have hsteps : ∀ st e, e ∈ walkListF (g + 1) subs →
        ∃ st2, stepEntry (processPackage g) st e = .ok st2 := by
      intro st e he
      cases e with
      | mod m fl => exact stepEntry_mod_ok _ st m fl
      | pkg n fl s =>
        by_cases hskip : skipName n = true
        · exact ⟨st, by simp [stepEntry, hskip]⟩
        · have hfl : fl = false := by
            cases fl
            · rfl
            · exact absurd (h (g + 1) n s he) hskip
          subst hfl
          obtain ⟨v, hv⟩ := ih n s (fun f n2 s2 hmem2 =>
            h ((g + 1) + f) n2 s2 (walk_mem_trans (g + 1) subs n false s _ f he hmem2))
          exact ⟨⟨dictMerge st.children v, st.modules, st.processed ++ [n]⟩,
            by simp [stepEntry, hskip, hv]⟩
    obtain ⟨stF, hF⟩ := foldEntries_ok_of_steps _ _ hsteps ⟨[], [], []⟩
    by_cases hempty : (stF.children.isEmpty && stF.modules.isEmpty) = true
    · exact ⟨[], by simp [processPackage, hF, hempty]⟩
    · exact ⟨[(name, Val.vDict [("obj", Val.pyObj), ("children", Val.vDict stF.children),
        ("module", Val.vDict stF.modules)])], by simp [processPackage, hF, hempty]⟩

/-- C6: the claim states every load failure, including that of a nested
sub-package, is isolated to its own subtree, with siblings kept. The code
only wraps plain-module imports in a try block; the load of a sub-package
happens outside it, so its exception propagates out of the whole walk: the
enclosing top-level root contributes nothing and its healthy siblings are
discarded (the scanner catches the exception and drops the entire root). -/
theorem claim_C6_counterexample :
    processPackage 5 "r" failForest = .error () ∧
    (genModuleDict 5 [⟨["r"], true, false, failForest⟩]).moduleDict = [] ∧
    processPackage 5 "r" [PTree.mod goodModule false] =
      .ok [("r", Val.vDict [("obj", Val.pyObj), ("children", Val.vDict []),
            ("module", Val.vDict (processModule goodModule "r.good"))])] :=
  ⟨rfl, rfl, rfl⟩

/-- C6 amended: a failing plain sub-module is skipped with no effect at all
on the result (the walk of a forest with the failing module equals the walk
without it), while a failing, non-skipped nested sub-package aborts the
whole enclosing package walk with an exception; when no reachable
sub-package fails, the walk always returns a result. The discovery pass as
a whole still never aborts: the scanner catches the exception, dropping
only that root. -/
theorem claim_C6_amended :
    (∀ (fuel : Nat) (name : String) (pre post : List PTree) (m : PyModule),
      processPackage fuel name (pre ++ PTree.mod m true :: post) =
        processPackage fuel name (pre ++ post)) ∧
    (∀ (fuel : Nat) (name : String) (subs : List PTree) (n : String) (s : List PTree),
      PTree.pkg n true s ∈ walkListF (fuel + 1) subs → skipName n = false →
      processPackage (fuel + 1) name subs = .error ()) ∧
    (∀ (fuel : Nat) (name : String) (subs : List PTree),
      (∀ (f : Nat) (n : String) (s : List PTree),
        PTree.pkg n true s ∈ walkListF f subs → skipName n = true) →
      ∃ v, processPackage fuel name subs = .ok v) :=
  ⟨processPackage_mod_failure_frame, processPackage_pkg_failure_aborts,
   processPackage_ok_of_no_pkg_failure⟩

theorem claim_C6_witness :
    processPackage 5 "r" ([] ++ PTree.mod sickModule true :: [PTree.mod goodModule false]) =
      processPackage 5 "r" ([] ++ [PTree.mod goodModule false]) ∧
    processPackage 5 "r" failForest = .error () ∧
    ∃ v, processPackage 5 "r" [PTree.mod goodModule false] = .ok v :=
  ⟨claim_C6_amended.1 5 "r" [] [PTree.mod goodModule false] sickModule,
   claim_C6_amended.2.1 4 "r" failForest "r.bad" [] (List.Mem.head _) rfl,
   claim_C6_amended.2.2 5 "r" [PTree.mod goodModule false] (by
     intro f n s hmem
     cases f with
     | zero => simp [walkListF] at hmem
     | succ g =>
       rw [walkListF_cons_mod, walkListF_nil] at hmem
       simp at hmem)⟩

/-! ## Renderer analysis (C8): paths of the built prefix tree -/

theorem insertPath_cons (p : String) (pt : List String) (es : List (String × Trie)) :
    insertPath (p :: pt) es = updateEntry p (chainOf pt) (insertPath pt) es := rfl

theorem chainOf_eq (q : List String) : chainOf q = Trie.node (insertPath q []) := by
  cases q with
  | nil => rfl
  | cons p pt => rfl

theorem updateEntry_nil (p : String) (fresh : Trie)
    (upd : List (String × Trie) → List (String × Trie)) :
    updateEntry p fresh upd [] = [(p, fresh)] := rfl

theorem updateEntry_cons_eq (p : String) (fresh : Trie)
    (upd : List (String × Trie) → List (String × Trie)) (ces : List (String × Trie))
    (rest : List (String × Trie)) :
    updateEntry p fresh upd ((p, Trie.node ces) :: rest) =
      (p, Trie.node (upd ces)) :: rest := by
  simp [updateEntry]

theorem updateEntry_cons_ne (p k : String) (fresh : Trie)
    (upd : List (String × Trie) → List (String × Trie)) (ces : List (String × Trie))
    (rest : List (String × Trie)) (h : k ≠ p) :
    updateEntry p fresh upd ((k, Trie.node ces) :: rest) =
      (k, Trie.node ces) :: updateEntry p fresh upd rest := by
  simp [updateEntry, h]

theorem nil_not_mem_pathsE : ∀ es : List (String × Trie), [] ∉ pathsE es := by
  intro es
  induction es using pathsE.induct with
  | case1 => simp [pathsE]
  | case2 k c r ihc ihr =>
    simp only [pathsE, List.mem_cons, List.mem_append, List.mem_map]
    rintro (h | ⟨y, _, hy⟩ | h)
    · cases h
    · cases hy
    · exact ihr h

theorem head_mem_keys_of_mem_pathsE : ∀ (es : List (String × Trie)) (x : List String),
    x ∈ pathsE es → ∃ k t2, x = k :: t2 ∧ k ∈ trieKeys es := by
  intro es
  induction es using pathsE.induct with
  | case1 => intro x h; simp [pathsE] at h
  | case2 k c r ihc ihr =>
    intro x h
    simp only [pathsE, List.mem_cons, List.mem_append, List.mem_map] at h
    rcases h with h | ⟨y, _, hy⟩ | h
    · exact ⟨k, [], h, by simp [trieKeys]⟩
    · exact ⟨k, y, hy.symm, by simp [trieKeys]⟩
    · obtain ⟨k2, t2, hx, hk2⟩ := ihr x h
      exact ⟨k2, t2, hx, by simp [trieKeys] at hk2 ⊢; exact Or.inr hk2⟩

theorem singleton_mem_pathsE_of_key : ∀ (es : List (String × Trie)) (k : String),
    k ∈ trieKeys es → [k] ∈ pathsE es := by
  intro es
  induction es using pathsE.induct with
  | case1 => intro k h; simp [trieKeys] at h
  | case2 k1 c r ihc ihr =>
    intro k h
    simp only [trieKeys, List.map_cons, List.mem_cons] at h
    simp only [pathsE, List.mem_cons, List.mem_append, List.mem_map]
    rcases h with rfl | h
    · exact Or.inl rfl
    · exact Or.inr (Or.inr (ihr k h))

theorem mem_pathsE_insertPath : ∀ (q : List String) (es : List (String × Trie))
    (x : List String),
    x ∈ pathsE (insertPath q es) ↔ x ∈ pathsE es ∨ (x ≠ [] ∧ x <+: q) := by
  intro q
  induction q with
  | nil =>
    intro es x
    simp only [insertPath, List.prefix_nil]
    constructor
    · exact Or.inl
    · rintro (h | ⟨hne, h⟩)
      · exact h
      · exact absurd h hne
  | cons p pt ih =>
    intro es x
    induction es with
    | nil =>
      rw [insertPath_cons, updateEntry_nil, chainOf_eq]
      simp only [pathsE, List.append_nil, List.mem_cons, List.mem_map]
      constructor
      · rintro (h | ⟨y, hy, hxy⟩)
        · subst h
          exact Or.inr ⟨by simp, by simp⟩
        · rcases (ih [] y).mp hy with h1 | ⟨hyne, hypre⟩
          · exact absurd h1 (by simp [pathsE])
          · refine Or.inr ⟨by simp [← hxy], ?_⟩
            rw [← hxy]
            exact List.cons_prefix_cons.mpr ⟨rfl, hypre⟩
      · rintro (h | ⟨hne, hpre⟩)
        · exact absurd h (by simp [pathsE])
        · rcases x with _ | ⟨xh, xt⟩
          · exact absurd rfl hne
          · obtain ⟨hxh, hxt⟩ := List.cons_prefix_cons.mp hpre
            subst hxh
            by_cases hxtnil : xt = []
            · subst hxtnil; exact Or.inl rfl
            · exact Or.inr ⟨xt, (ih [] xt).mpr (Or.inr ⟨hxtnil, hxt⟩), rfl⟩
    | cons e rest ihes =>
      rcases e with ⟨k, ⟨ces⟩⟩
      by_cases hkp : k = p
      · subst hkp
        rw [insertPath_cons, updateEntry_cons_eq]
        rcases x with _ | ⟨xh, xt⟩
        · constructor
          · intro h; exact absurd h (nil_not_mem_pathsE _)
          · rintro (h | ⟨hne, _⟩)
            · exact absurd h (nil_not_mem_pathsE _)
            · exact absurd rfl hne
        · simp only [pathsE, List.mem_cons, List.mem_append, List.mem_map]
          constructor
          · rintro (heq | ⟨y, hy, hxy⟩ | hr)
            · exact Or.inl (Or.inl heq)
            · rcases (ih ces y).mp hy with h1 | ⟨hyne, hypre⟩
              · exact Or.inl (Or.inr (Or.inl ⟨y, h1, hxy⟩))
              · refine Or.inr ⟨by simp, ?_⟩
                rw [← hxy]
                exact List.cons_prefix_cons.mpr ⟨rfl, hypre⟩
            · exact Or.inl (Or.inr (Or.inr hr))
          · rintro ((heq | ⟨y, hy, hxy⟩ | hr) | ⟨hne, hpre⟩)
            · exact Or.inl heq
            · exact Or.inr (Or.inl ⟨y, (ih ces y).mpr (Or.inl hy), hxy⟩)
            · exact Or.inr (Or.inr hr)
            · obtain ⟨hxh, hxt⟩ := List.cons_prefix_cons.mp hpre
              subst hxh
              by_cases hxtnil : xt = []
              · subst hxtnil; exact Or.inl rfl
              · exact Or.inr (Or.inl ⟨xt, (ih ces xt).mpr (Or.inr ⟨hxtnil, hxt⟩), rfl⟩)
      · rw [insertPath_cons, updateEntry_cons_ne _ _ _ _ _ _ hkp, ← insertPath_cons]
        rcases x with _ | ⟨xh, xt⟩
        · constructor
          · intro h; exact absurd h (nil_not_mem_pathsE _)
          · rintro (h | ⟨hne, _⟩)
            · exact absurd h (nil_not_mem_pathsE _)
            · exact absurd rfl hne
        · simp only [pathsE, List.mem_cons, List.mem_append, List.mem_map]
          constructor
          · rintro (heq | ⟨y, hy, hxy⟩ | hm)
            · exact Or.inl (Or.inl heq)
            · exact Or.inl (Or.inr (Or.inl ⟨y, hy, hxy⟩))
            · rcases ihes.mp hm with hr | hp2
              · exact Or.inl (Or.inr (Or.inr hr))
              · exact Or.inr hp2
          · rintro ((heq | ⟨y, hy, hxy⟩ | hr) | hp2)
            · exact Or.inl heq
            · exact Or.inr (Or.inl ⟨y, hy, hxy⟩)
            · exact Or.inr (Or.inr (ihes.mpr (Or.inl hr)))
            · exact Or.inr (Or.inr (ihes.mpr (Or.inr hp2)))

theorem nodup_pathsE_chain : ∀ q : List String, (pathsE (insertPath q [])).Nodup := by
  intro q
  induction q with
  | nil => simp [insertPath, pathsE]
  | cons p pt ih =>
    rw [insertPath_cons, updateEntry_nil, chainOf_eq]
    simp only [pathsE, List.append_nil]
    refine List.Pairwise.cons ?_ (List.Nodup.map (fun a b h => by injection h) ih)
    intro y hy
    simp only [List.mem_map] at hy
    obtain ⟨z, hz, hzy⟩ := hy
    intro hcontra
    rw [← hcontra] at hzy
    have : z = [] := by injection hzy.symm with h1 h2; exact h2.symm
    exact nil_not_mem_pathsE _ (this ▸ hz)

theorem nodup_pathsE_insertPath : ∀ (q : List String) (es : List (String × Trie)),
    (pathsE es).Nodup → (pathsE (insertPath q es)).Nodup := by
  intro q
  induction q with
  | nil => intro es h; exact h
  | cons p pt ih =>
    intro es
    induction es with
    | nil => intro _; exact nodup_pathsE_chain (p :: pt)
    | cons e rest ihes =>
      rcases e with ⟨k, ⟨ces⟩⟩
      intro hnd
      simp only [pathsE] at hnd
      rw [List.nodup_cons, List.nodup_append] at hnd
      obtain ⟨hknotin, hA, hB, hdisj⟩ := hnd
      have hAnodup : (pathsE ces).Nodup := hA.of_map _
      have hknotinA : [k] ∉ (pathsE ces).map (k :: ·) := fun hc => hknotin (by
        simp only [List.mem_append]; exact Or.inl hc)
      have hknotinB : [k] ∉ pathsE rest := fun hc => hknotin (by
        simp only [List.mem_append]; exact Or.inr hc)
      by_cases hkp : k = p
      · subst hkp
        rw [insertPath_cons, updateEntry_cons_eq]
        simp only [pathsE]
        rw [List.nodup_cons, List.nodup_append]
        refine ⟨?_, List.Nodup.map (fun a b h => by injection h) (ih ces hAnodup), hB, ?_⟩
        · intro hc
          simp only [List.mem_append, List.mem_map] at hc
          rcases hc with ⟨y, hy, hky⟩ | hc
          · have hynil : y = [] := by simpa using hky
            exact nil_not_mem_pathsE _ (hynil ▸ hy)
          · exact hknotinB hc
        · intro x hx
          simp only [List.mem_map] at hx
          obtain ⟨y, hy, hxy⟩ := hx
          rcases (mem_pathsE_insertPath pt ces y).mp hy with h1 | ⟨hyne, hypre⟩
          · exact hdisj (List.mem_map.mpr ⟨y, h1, hxy⟩)
          · intro hxB
            obtain ⟨k2, t2, hx2, hk2⟩ := head_mem_keys_of_mem_pathsE rest x hxB
            rw [← hxy] at hx2
            have h12 : k = k2 ∧ y = t2 := by simpa using hx2
            exact hknotinB (singleton_mem_pathsE_of_key rest k (h12.1 ▸ hk2))
      · rw [insertPath_cons, updateEntry_cons_ne _ _ _ _ _ _ hkp, ← insertPath_cons]
        simp only [pathsE]
        rw [List.nodup_cons, List.nodup_append]
        refine ⟨?_, hA, ihes hB, ?_⟩
        · intro hc
          simp only [List.mem_append] at hc
          rcases hc with hc | hc
          · exact hknotinA hc
          · rcases (mem_pathsE_insertPath (p :: pt) rest [k]).mp hc with h1 | ⟨_, hpre⟩
            · exact hknotinB h1
            · exact hkp (List.cons_prefix_cons.mp hpre).1
        · intro x hx
          simp only [List.mem_map] at hx
          obtain ⟨y, hy, hxy⟩ := hx
          intro hxB2
          rcases (mem_pathsE_insertPath (p :: pt) rest x).mp hxB2 with h1 | ⟨_, hpre⟩
          · exact hdisj (List.mem_map.mpr ⟨y, hy, hxy⟩) h1
          · rw [← hxy] at hpre
            exact hkp (List.cons_prefix_cons.mp hpre).1

theorem nodup_pathsE_buildEntries : ∀ (names : List String) (es : List (String × Trie)),
    (pathsE es).Nodup → (pathsE (buildEntries names es)).Nodup := by
  intro names
  induction names with
  | nil => intro es h; exact h
  | cons n ns ih =>
    intro es h
    exact ih _ (nodup_pathsE_insertPath _ es h)

theorem mem_pathsE_buildEntries : ∀ (names : List String) (es : List (String × Trie))
    (x : List String),
    x ∈ pathsE (buildEntries names es) ↔
      x ∈ pathsE es ∨ ∃ n ∈ names, x ≠ [] ∧ x <+: pySplit '.' n := by
  intro names
  induction names with
  | nil => intro es x; simp [buildEntries]
  | cons n ns ih =>
    intro es x
    show x ∈ pathsE (buildEntries ns (insertPath (pySplit '.' n) es)) ↔ _
    rw [ih, mem_pathsE_insertPath]
    simp only [List.mem_cons]
    constructor
    · rintro ((h | h) | ⟨m, hm, hx⟩)
      · exact Or.inl h
      · exact Or.inr ⟨n, Or.inl rfl, h⟩
      · exact Or.inr ⟨m, Or.inr hm, hx⟩
    · rintro (h | ⟨m, rfl | hm, hx⟩)
      · exact Or.inl (Or.inl h)
      · exact Or.inl (Or.inr hx)
      · exact Or.inr ⟨m, hm, hx⟩

/-! ## Renderer analysis (C8): counting lines -/

theorem sizeE_eq_length_pathsE : ∀ es : List (String × Trie),
    sizeE es = (pathsE es).length := by
  intro es
  induction es using sizeE.induct with
  | case1 => simp [sizeE, pathsE]
  | case2 k c r ihc ihr =>
    simp only [sizeE, pathsE, List.length_cons, List.length_append, List.length_map, ihc, ihr]
    omega

theorem depthE_mem_lt : ∀ (es : List (String × Trie)) (k : String)
    (c : List (String × Trie)), (k, Trie.node c) ∈ es → depthE c < depthE es := by
  intro es
  induction es with
  | nil => intro k c h; cases h
  | cons e r ih =>
    rcases e with ⟨k1, ⟨c1⟩⟩
    intro k c h
    rcases List.mem_cons.mp h with heq | hmem
    · have h12 : k = k1 ∧ c = c1 := by simpa using heq
      rw [h12.2]
      simp only [depthE]
      omega
    · have := ih k c hmem
      simp only [depthE]
      omega

theorem depthE_insertPath_le : ∀ (q : List String) (es : List (String × Trie)),
    depthE (insertPath q es) ≤ max (depthE es) q.length := by
  intro q
  induction q with
  | nil => intro es; simp [insertPath]
  | cons p pt ih =>
    intro es
    induction es with
    | nil =>
      rw [insertPath_cons, updateEntry_nil, chainOf_eq]
      have h := ih []
      simp only [depthE, List.length_cons] at h ⊢
      omega
    | cons e rest ihes =>
      rcases e with ⟨k, ⟨ces⟩⟩
      by_cases hkp : k = p
      · subst hkp
        rw [insertPath_cons, updateEntry_cons_eq]
        have h := ih ces
        simp only [depthE, List.length_cons] at h ⊢
        omega
      · rw [insertPath_cons, updateEntry_cons_ne _ _ _ _ _ _ hkp, ← insertPath_cons]
        simp only [depthE, List.length_cons] at ihes ⊢
        omega

theorem depthE_buildEntries_le : ∀ (names : List String) (es : List (String × Trie)),
    depthE (buildEntries names es) ≤
      depthE es + (names.map fun n => (pySplit '.' n).length).sum := by
  intro names
  induction names with
  | nil => intro es; simp [buildEntries]
  | cons n ns ih =>
    intro es
    show depthE (buildEntries ns (insertPath (pySplit '.' n) es)) ≤ _
    have h1 := ih (insertPath (pySplit '.' n) es)
    have h2 := depthE_insertPath_le (pySplit '.' n) es
    simp only [List.map_cons, List.sum_cons]
    omega

theorem sum_entry_sizes : ∀ es : List (String × Trie),
    (es.map fun e => match e with | (_, Trie.node c) => 1 + sizeE c).sum = sizeE es := by
  intro es
  induction es using sizeE.induct with
  | case1 => simp [sizeE]
  | case2 k c r ihc ihr =>
    simp only [List.map_cons, List.sum_cons, sizeE, ihr]

theorem length_processTreeDict : ∀ (fuel : Nat) (es : List (String × Trie)) (level : Nat),
    depthE es < fuel → (processTreeDict fuel es level).length = sizeE es := by
  intro fuel
  induction fuel with
  | zero => intro es level h; exact absurd h (Nat.not_lt_zero _)
  | succ f ih =>
    intro es level h
    simp only [processTreeDict]
    rw [List.length_flatMap]
    have hcongr : List.map (List.length ∘ fun e =>
        match e with
        | (name, Trie.node ces) =>
          if ces.isEmpty then [indentOf level ++ "- " ++ name]
          else (indentOf level ++ "- " ++ name ++ "/") :: processTreeDict f ces (level + 1))
        (sortEntries es) =
        List.map (fun e => match e with | (_, Trie.node c) => 1 + sizeE c) (sortEntries es) := by
      apply List.map_congr_left
      intro e he
      have hees : e ∈ es := ((List.perm_insertionSort entryLe es).mem_iff).mp he
      rcases e with ⟨name, ⟨ces⟩⟩
      have hd : depthE ces < f := by
        have h1 := depthE_mem_lt es name ces hees
        omega
      show (if ces.isEmpty then _ else _ :: processTreeDict f ces (level + 1)).length = 1 + sizeE ces
      by_cases hemp : ces.isEmpty
      · have : ces = [] := by simpa [List.isEmpty_iff] using hemp
        subst this
        simp [hemp, sizeE]
      · simp only [if_neg hemp, List.length_cons, ih ces (level + 1) hd]
        omega
    rw [hcongr]
    unfold sortEntries
    rw [List.Perm.sum_eq (List.Perm.map _ (List.perm_insertionSort entryLe es))]
    exact sum_entry_sizes es

theorem splitChars_ne_nil (sep : Char) : ∀ l : List Char, splitChars sep l ≠ [] := by
  intro l
  induction l with
  | nil => simp [splitChars]
  | cons c cs ih =>
    simp only [splitChars]
    cases hs : splitChars sep cs with
    | nil => simp
    | cons h0 t =>
      by_cases hc : c = sep <;> simp [hc]

theorem pySplit_ne_nil (sep : Char) (s : String) : pySplit sep s ≠ [] := by
  unfold pySplit
  intro h
  exact splitChars_ne_nil sep s.data (List.map_eq_nil_iff.mp h)

theorem mem_prefixesOf (x segs : List String) :
    x ∈ prefixesOf segs ↔ x ≠ [] ∧ x <+: segs := by
  unfold prefixesOf
  rw [List.mem_filter, List.mem_inits]
  simp [List.isEmpty_iff, and_comm]

theorem distinctPrefixCount_eq (names : List String) :
    distinctPrefixCount names = (pathsE (buildEntries names [])).length := by
  unfold distinctPrefixCount
  have hnd1 : (((names.map (pySplit '.')).flatMap prefixesOf).dedup).Nodup :=
    List.nodup_dedup _
  have hnd2 := nodup_pathsE_buildEntries names [] (by simp [pathsE])
  have hmem : ∀ x, x ∈ ((names.map (pySplit '.')).flatMap prefixesOf).dedup ↔
      x ∈ pathsE (buildEntries names []) := by
    intro x
    rw [List.mem_dedup, List.mem_flatMap, mem_pathsE_buildEntries]
    constructor
    · rintro ⟨segs, hsegs, hx⟩
      obtain ⟨n, hn, rfl⟩ := List.mem_map.mp hsegs
      obtain ⟨hne, hpre⟩ := (mem_prefixesOf _ _).mp hx
      exact Or.inr ⟨n, hn, hne, hpre⟩
    · rintro (h | ⟨n, hn, hne, hpre⟩)
      · simp [pathsE] at h
      · exact ⟨pySplit '.' n, List.mem_map_of_mem _ hn,
          (mem_prefixesOf _ _).mpr ⟨hne, hpre⟩⟩
  exact List.Perm.length_eq ((List.perm_ext_iff_of_nodup hnd1 hnd2).mpr hmem)

/-! ## Renderer analysis (C8): the output depends only on the path set -/

theorem charListLe_antisymm : ∀ as bs : List Char,
    charListLe as bs = true → charListLe bs as = true → as = bs := by
  intro as
  induction as with
  | nil =>
    intro bs _ h2
    cases bs with
    | nil => rfl
    | cons b bt => simp [charListLe] at h2
  | cons a at2 ih =>
    intro bs h1 h2
    cases bs with
    | nil => simp [charListLe] at h1
    | cons b bt =>
      by_cases hab : a = b
      · subst hab
        simp only [charListLe, if_pos rfl] at h1 h2
        rw [ih bt h1 h2]
      · have hba : b ≠ a := fun h => hab h.symm
        simp only [charListLe, if_neg hab] at h1
        simp only [charListLe, if_neg hba] at h2
        have l1 : a < b := of_decide_eq_true h1
        have l2 : b < a := of_decide_eq_true h2
        exact absurd l1 (not_lt_of_gt l2)

theorem pathsE_nil_iff (es : List (String × Trie)) : pathsE es = [] ↔ es = [] := by
  cases es with
  | nil => simp [pathsE]
  | cons e r =>
    rcases e with ⟨k, ⟨ces⟩⟩
    simp [pathsE]

theorem singletons_sublist : ∀ es : List (String × Trie),
    List.Sublist (List.map (fun k => [k]) (trieKeys es)) (pathsE es) := by
  intro es
  induction es using pathsE.induct with
  | case1 => simp [trieKeys, pathsE]
  | case2 k c r ihc ihr =>
    have hp : pathsE ((k, Trie.node c) :: r) =
        [k] :: (List.map (k :: ·) (pathsE c) ++ pathsE r) := by
      simp [pathsE]
    have hk : trieKeys ((k, Trie.node c) :: r) = k :: trieKeys r := rfl
    rw [hp, hk, List.map_cons]
    exact List.Sublist.cons₂ _ (ihr.trans (List.sublist_append_right _ _))

theorem nodup_keys_of_nodup_paths (es : List (String × Trie))
    (h : (pathsE es).Nodup) : (trieKeys es).Nodup :=
  (h.sublist (singletons_sublist es)).of_map (fun k => [k])

theorem key_mem_iff_singleton (es : List (String × Trie)) (k : String) :
    k ∈ trieKeys es ↔ [k] ∈ pathsE es := by
  constructor
  · exact singleton_mem_pathsE_of_key es k
  · intro h
    obtain ⟨k2, t2, hx, hk2⟩ := head_mem_keys_of_mem_pathsE es [k] h
    have h12 : k = k2 ∧ ([] : List String) = t2 := by simpa using hx
    exact h12.1 ▸ hk2

theorem nodup_paths_sub : ∀ (es : List (String × Trie)) (k : String)
    (c : List (String × Trie)), (k, Trie.node c) ∈ es → (pathsE es).Nodup →
    (pathsE c).Nodup := by
  intro es
  induction es with
  | nil => intro k c h; cases h
  | cons e r ih =>
    rcases e with ⟨k1, ⟨c1⟩⟩
    intro k c hm hnd
    simp only [pathsE] at hnd
    rw [List.nodup_cons, List.nodup_append] at hnd
    obtain ⟨_, hA, hB, _⟩ := hnd
    rcases List.mem_cons.mp hm with heq | hmem
    · have h12 : k = k1 ∧ c = c1 := by simpa using heq
      exact h12.2 ▸ hA.of_map _
    · exact ih k c hmem hB

theorem mem_sub_pathsE : ∀ (es : List (String × Trie)) (k : String)
    (c : List (String × Trie)) (x : List String),
    (k, Trie.node c) ∈ es → (pathsE es).Nodup → x ≠ [] →
    ((k :: x) ∈ pathsE es ↔ x ∈ pathsE c) := by
  intro es
  induction es with
  | nil => intro k c x h; cases h
  | cons e r ih =>
    rcases e with ⟨k1, ⟨c1⟩⟩
    intro k c x hm hnd hx
    simp only [pathsE] at hnd ⊢
    rw [List.nodup_cons, List.nodup_append] at hnd
    obtain ⟨hnotin, hA, hB, hdisj⟩ := hnd
    have hknotinB : k1 ∈ trieKeys r → False := fun hk => hnotin (by
      simp only [List.mem_append]
      exact Or.inr (singleton_mem_pathsE_of_key r k1 hk))
    rcases List.mem_cons.mp hm with heq | hmem
    · have h12 : k = k1 ∧ c = c1 := by simpa using heq
      obtain ⟨hk12, hc12⟩ := h12
      subst hk12
      subst hc12
      constructor
      · intro hmem2
        simp only [List.mem_cons, List.mem_append, List.mem_map] at hmem2
        rcases hmem2 with heq2 | ⟨y, hy, hky⟩ | hmemB
        · have hxnil : x = [] := by simpa using heq2
          exact absurd hxnil hx
        · have h2 : y = x := by simpa using hky
          exact h2 ▸ hy
        · obtain ⟨k2, t2, he, hk2⟩ := head_mem_keys_of_mem_pathsE r _ hmemB
          have h2 : k = k2 ∧ x = t2 := by simpa using he
          exact absurd (h2.1 ▸ hk2) hknotinB
      · intro hmem2
        simp only [List.mem_cons, List.mem_append, List.mem_map]
        exact Or.inr (Or.inl ⟨x, hmem2, rfl⟩)
    · constructor
      · intro hmem2
        simp only [List.mem_cons, List.mem_append, List.mem_map] at hmem2
        rcases hmem2 with heq2 | ⟨y, hy, hky⟩ | hmemB
        · have hxnil : x = [] := by
            have h2 : k = k1 ∧ x = [] := by simpa using heq2
            exact h2.2
          exact absurd hxnil hx
        · have h2 : k1 = k ∧ y = x := by
            constructor
            · have := congrArg (fun l => List.head? l) hky
              simpa using this
            · have := congrArg (fun l => List.tail l) hky
              simpa using this
          have hkk : k ∈ trieKeys r := by
            have : Prod.fst ((k, Trie.node c)) ∈ (r.map Prod.fst) :=
              List.mem_map_of_mem Prod.fst hmem
            exact this
          exact absurd (by rw [h2.1]; exact hkk) hknotinB
        · exact (ih k c x hmem hB hx).mp hmemB
      · intro hmem2
        simp only [List.mem_cons, List.mem_append, List.mem_map]
        exact Or.inr (Or.inr ((ih k c x hmem hB hx).mpr hmem2))

theorem flatMap_render_congr (f : Nat) (level : Nat)
    (ihrender : ∀ (c1 c2 : List (String × Trie)) (lv : Nat),
      (pathsE c1).Nodup → (pathsE c2).Nodup → (∀ x, x ∈ pathsE c1 ↔ x ∈ pathsE c2) →
      depthE c1 < f → depthE c2 < f →
      processTreeDict f c1 lv = processTreeDict f c2 lv) :
    ∀ (s1 s2 : List (String × Trie)),
      s1.map Prod.fst = s2.map Prod.fst →
      (∀ k c1 c2, (k, Trie.node c1) ∈ s1 → (k, Trie.node c2) ∈ s2 →
        (pathsE c1).Nodup ∧ (pathsE c2).Nodup ∧ (∀ x, x ∈ pathsE c1 ↔ x ∈ pathsE c2) ∧
        depthE c1 < f ∧ depthE c2 < f) →
      (s1.flatMap fun e => match e with
        | (name, Trie.node ces) =>
          if ces.isEmpty then [indentOf level ++ "- " ++ name]
          else (indentOf level ++ "- " ++ name ++ "/") :: processTreeDict f ces (level + 1)) =
      (s2.flatMap fun e => match e with
        | (name, Trie.node ces) =>
          if ces.isEmpty then [indentOf level ++ "- " ++ name]
          else (indentOf level ++ "- " ++ name ++ "/") :: processTreeDict f ces (level + 1)) := by
  intro s1
  induction s1 with
  | nil =>
    intro s2 hmap _
    have hs2 : s2 = [] := by simpa using hmap.symm
    subst hs2
    rfl
  | cons e1 t1 iht =>
    rcases e1 with ⟨k1, ⟨c1⟩⟩
    intro s2 hmap hcond
    cases s2 with
    | nil => simp at hmap
    | cons e2 t2 =>
      rcases e2 with ⟨k2, ⟨c2⟩⟩
      simp only [List.map_cons, List.cons.injEq] at hmap
      obtain ⟨hkk, hmaptail⟩ := hmap
      have hkk2 : k1 = k2 := hkk
      subst hkk2
      obtain ⟨hc1nd, hc2nd, hciff, hcd1, hcd2⟩ :=
        hcond k1 c1 c2 (List.mem_cons_self _ _) (List.mem_cons_self _ _)
      have hempiff : c1 = [] ↔ c2 = [] := by
        rw [← pathsE_nil_iff, ← pathsE_nil_iff,
            List.eq_nil_iff_forall_not_mem, List.eq_nil_iff_forall_not_mem]
        constructor
        · intro hn x hxmem
          exact hn x ((hciff x).mpr hxmem)
        · intro hn x hxmem
          exact hn x ((hciff x).mp hxmem)
      simp only [List.flatMap_cons]
      have hhead : (if c1.isEmpty then [indentOf level ++ "- " ++ k1]
          else (indentOf level ++ "- " ++ k1 ++ "/") :: processTreeDict f c1 (level + 1)) =
          (if c2.isEmpty then [indentOf level ++ "- " ++ k1]
          else (indentOf level ++ "- " ++ k1 ++ "/") :: processTreeDict f c2 (level + 1)) := by
        by_cases h1 : c1 = []
        · have h2 : c2 = [] := hempiff.mp h1
          subst h1; subst h2; rfl
        · have h2 : ¬ c2 = [] := fun hh => h1 (hempiff.mpr hh)
          rw [if_neg (by simpa [List.isEmpty_iff] using h1),
              if_neg (by simpa [List.isEmpty_iff] using h2)]
          rw [ihrender c1 c2 (level + 1) hc1nd hc2nd hciff hcd1 hcd2]
      rw [hhead]
      congr 1
      exact iht t2 hmaptail (fun k d1 d2 hm1 hm2 =>
        hcond k d1 d2 (List.mem_cons_of_mem _ hm1) (List.mem_cons_of_mem _ hm2))

theorem render_eq_of_paths : ∀ (fuel : Nat) (es1 es2 : List (String × Trie)) (level : Nat),
    (pathsE es1).Nodup → (pathsE es2).Nodup →
    (∀ x, x ∈ pathsE es1 ↔ x ∈ pathsE es2) →
    depthE es1 < fuel → depthE es2 < fuel →
    processTreeDict fuel es1 level = processTreeDict fuel es2 level := by
  intro fuel
  induction fuel with
  | zero => intro es1 es2 level _ _ _ h1 _; exact absurd h1 (Nat.not_lt_zero _)
  | succ f ih =>
    intro es1 es2 level hnd1 hnd2 hpaths hd1 hd2
    have hk1 : (trieKeys es1).Nodup := nodup_keys_of_nodup_paths es1 hnd1
    have hk2 : (trieKeys es2).Nodup := nodup_keys_of_nodup_paths es2 hnd2
    have hkmem : ∀ k, k ∈ trieKeys es1 ↔ k ∈ trieKeys es2 := fun k => by
      rw [key_mem_iff_singleton, key_mem_iff_singleton]
      exact hpaths [k]
    have hkperm : List.Perm (trieKeys es1) (trieKeys es2) :=
      (List.perm_ext_iff_of_nodup hk1 hk2).mpr hkmem
    have hmapfst : (sortEntries es1).map Prod.fst = (sortEntries es2).map Prod.fst := by
      haveI : IsAntisymm String (fun a b => charListLe a.data b.data = true) :=
        ⟨fun a b h1 h2 => String.ext (charListLe_antisymm _ _ h1 h2)⟩
      apply List.eq_of_perm_of_sorted
        (r := fun a b : String => charListLe a.data b.data = true)
      · exact ((List.Perm.map _ (List.perm_insertionSort entryLe es1)).trans hkperm).trans
          (List.Perm.map _ (List.perm_insertionSort entryLe es2)).symm
      · exact List.Pairwise.map _ (fun a b h => h) (List.sorted_insertionSort entryLe es1)
      · exact List.Pairwise.map _ (fun a b h => h) (List.sorted_insertionSort entryLe es2)
    have hcond : ∀ k c1 c2, (k, Trie.node c1) ∈ sortEntries es1 →
        (k, Trie.node c2) ∈ sortEntries es2 →
        (pathsE c1).Nodup ∧ (pathsE c2).Nodup ∧ (∀ x, x ∈ pathsE c1 ↔ x ∈ pathsE c2) ∧
        depthE c1 < f ∧ depthE c2 < f := by
      intro k c1 c2 hm1 hm2
      have hm1e : (k, Trie.node c1) ∈ es1 :=
        (List.perm_insertionSort entryLe es1).mem_iff.mp hm1
      have hm2e : (k, Trie.node c2) ∈ es2 :=
        (List.perm_insertionSort entryLe es2).mem_iff.mp hm2
      refine ⟨nodup_paths_sub es1 k c1 hm1e hnd1, nodup_paths_sub es2 k c2 hm2e hnd2,
        ?_, ?_, ?_⟩
      · intro x
        by_cases hx : x = []
        · subst hx
          constructor
          · intro hmm; exact absurd hmm (nil_not_mem_pathsE _)
          · intro hmm; exact absurd hmm (nil_not_mem_pathsE _)
        · rw [← mem_sub_pathsE es1 k c1 x hm1e hnd1 hx,
              ← mem_sub_pathsE es2 k c2 x hm2e hnd2 hx]
          exact hpaths (k :: x)
      · have := depthE_mem_lt es1 k c1 hm1e; omega
      · have := depthE_mem_lt es2 k c2 hm2e; omega
    simp only [processTreeDict]
    exact flatMap_render_congr f level ih (sortEntries es1) (sortEntries es2) hmapfst hcond

/-! ## Renderer analysis (C8): joining and splitting lines -/

theorem mem_of_mem_splitChars (sep : Char) : ∀ (l piece : List Char),
    piece ∈ splitChars sep l → ∀ ch ∈ piece, ch ∈ l := by
  intro l
  induction l with
  | nil =>
    intro piece hp ch hch
    simp only [splitChars, List.mem_singleton] at hp
    subst hp
    cases hch
  | cons c cs ih =>
    intro piece hp ch hch
    simp only [splitChars] at hp
    cases hs : splitChars sep cs with
    | nil => exact absurd hs (splitChars_ne_nil sep cs)
    | cons h0 t =>
      simp only [hs] at hp
      by_cases hc : c = sep
      · rw [if_pos hc] at hp
        rcases List.mem_cons.mp hp with rfl | hp2
        · cases hch
        · have hmem : piece ∈ splitChars sep cs := by rw [hs]; exact hp2
          exact List.mem_cons_of_mem _ (ih piece hmem ch hch)
      · rw [if_neg hc] at hp
        rcases List.mem_cons.mp hp with rfl | hp2
        · rcases List.mem_cons.mp hch with rfl | hch2
          · exact List.mem_cons_self _ _
          · have hh0 : h0 ∈ splitChars sep cs := by
              rw [hs]; exact List.mem_cons_self _ _
            exact List.mem_cons_of_mem _ (ih h0 hh0 ch hch2)
        · have hmem : piece ∈ splitChars sep cs := by
            rw [hs]; exact List.mem_cons_of_mem _ hp2
          exact List.mem_cons_of_mem _ (ih piece hmem ch hch)

theorem splitChars_eq_single (sep : Char) : ∀ l : List Char,
    sep ∉ l → splitChars sep l = [l] := by
  intro l
  induction l with
  | nil => intro _; rfl
  | cons c cs ih =>
    intro h
    have hc : ¬ c = sep := fun hh => h (by rw [hh]; exact List.mem_cons_self _ _)
    have hcs : sep ∉ cs := fun hh => h (List.mem_cons_of_mem _ hh)
    simp only [splitChars, ih hcs]
    rw [if_neg hc]

theorem splitChars_append_sep (sep : Char) : ∀ (a u : List Char), sep ∉ a →
    splitChars sep (a ++ sep :: u) = a :: splitChars sep u := by
  intro a
  induction a with
  | nil =>
    intro u _
    show splitChars sep (sep :: u) = [] :: splitChars sep u
    simp only [splitChars]
    cases hs : splitChars sep u with
    | nil => exact absurd hs (splitChars_ne_nil sep u)
    | cons h0 t => simp [hs]
  | cons c cs ih =>
    intro u h
    have hc : ¬ c = sep := fun hh => h (by rw [hh]; exact List.mem_cons_self _ _)
    have hcs : sep ∉ cs := fun hh => h (List.mem_cons_of_mem _ hh)
    show splitChars sep (c :: (cs ++ sep :: u)) = (c :: cs) :: splitChars sep u
    simp only [splitChars, ih u hcs]
    rw [if_neg hc]

theorem splitChars_joinChars (sep : Char) : ∀ ls : List (List Char),
    ls ≠ [] → (∀ l ∈ ls, sep ∉ l) → splitChars sep (joinChars sep ls) = ls := by
  intro ls
  induction ls with
  | nil => intro h _; exact absurd rfl h
  | cons a rest ih =>
    intro _ hsep
    cases rest with
    | nil =>
      show splitChars sep (joinChars sep [a]) = [a]
      exact splitChars_eq_single sep a (hsep a (List.mem_cons_self _ _))
    | cons b rest2 =>
      show splitChars sep (a ++ sep :: joinChars sep (b :: rest2)) = a :: b :: rest2
      rw [splitChars_append_sep sep a _ (hsep a (List.mem_cons_self _ _))]
      rw [ih (by simp) (fun l hl => hsep l (List.mem_cons_of_mem _ hl))]

theorem pySplit_pyJoin (sep : Char) (parts : List String) (hne : parts ≠ [])
    (hsep : ∀ p ∈ parts, sep ∉ p.data) : pySplit sep (pyJoin sep parts) = parts := by
  unfold pySplit pyJoin
  rw [show (String.mk (joinChars sep (parts.map String.data))).data =
      joinChars sep (parts.map String.data) from rfl]
  rw [splitChars_joinChars sep _ (by simpa using hne) (by
    intro l hl
    obtain ⟨p, hp, rfl⟩ := List.mem_map.mp hl
    exact hsep p hp)]
  rw [List.map_map]
  have hcomp : String.mk ∘ String.data = id := funext fun s => rfl
  rw [hcomp, List.map_id]

theorem no_newline_append (s t : String) (hs : '\n' ∉ s.data) (ht : '\n' ∉ t.data) :
    '\n' ∉ (s ++ t).data := by
  rw [String.data_append]
  intro h
  rcases List.mem_append.mp h with h | h
  · exact hs h
  · exact ht h

theorem indentOf_no_newline : ∀ level : Nat, '\n' ∉ (indentOf level).data := by
  intro level
  induction level with
  | zero => intro h; cases h
  | succ n ih =>
    exact no_newline_append "  " (indentOf n) (by decide) ih

theorem cons_mem_pathsE_of_sub : ∀ (es : List (String × Trie)) (k : String)
    (c : List (String × Trie)) (x : List String),
    (k, Trie.node c) ∈ es → x ∈ pathsE c → (k :: x) ∈ pathsE es := by
  intro es
  induction es with
  | nil => intro k c x h; cases h
  | cons e r ih =>
    rcases e with ⟨k1, ⟨c1⟩⟩
    intro k c x hm hx
    simp only [pathsE, List.mem_cons, List.mem_append, List.mem_map]
    rcases List.mem_cons.mp hm with heq | hmem
    · have h12 : k = k1 ∧ c = c1 := by simpa using heq
      obtain ⟨rfl, rfl⟩ := h12
      exact Or.inr (Or.inl ⟨x, hx, rfl⟩)
    · exact Or.inr (Or.inr (ih k c x hmem hx))

theorem no_newline_segs (names : List String) (hnl : ∀ n ∈ names, '\n' ∉ n.data) :
    ∀ x ∈ pathsE (buildEntries names []), ∀ seg ∈ x, '\n' ∉ seg.data := by
  intro x hx seg hseg hch
  rcases (mem_pathsE_buildEntries names [] x).mp hx with h | ⟨n, hn, _, hpre⟩
  · simp [pathsE] at h
  · have hsegmem : seg ∈ pySplit '.' n := hpre.sublist.subset hseg
    unfold pySplit at hsegmem
    obtain ⟨piece, hpiece, rfl⟩ := List.mem_map.mp hsegmem
    exact hnl n hn (mem_of_mem_splitChars '.' n.data piece hpiece '\n' hch)

theorem processTreeDict_no_newline : ∀ (fuel : Nat) (es : List (String × Trie))
    (level : Nat),
    (∀ x ∈ pathsE es, ∀ seg ∈ x, '\n' ∉ seg.data) →
    ∀ line ∈ processTreeDict fuel es level, '\n' ∉ line.data := by
  intro fuel
  induction fuel with
  | zero => intro es level _ line h; simp [processTreeDict] at h
  | succ f ih =>
    intro es level hsegs line hline
    simp only [processTreeDict] at hline
    rw [List.mem_flatMap] at hline
    obtain ⟨e, he, hle⟩ := hline
    have hees : e ∈ es := (List.perm_insertionSort entryLe es).mem_iff.mp he
    rcases e with ⟨name, ⟨ces⟩⟩
    dsimp only at hle
    have hname : '\n' ∉ name.data := by
      have hk : name ∈ trieKeys es := List.mem_map_of_mem Prod.fst hees
      exact hsegs [name] (singleton_mem_pathsE_of_key es name hk) name
        (List.mem_cons_self _ _)
    have hline1 : '\n' ∉ (indentOf level ++ "- " ++ name).data :=
      no_newline_append _ _ (no_newline_append _ _ (indentOf_no_newline level)
        (by decide)) hname
    by_cases hemp : ces.isEmpty
    · rw [if_pos hemp] at hle
      rw [List.mem_singleton.mp hle]
      exact hline1
    · rw [if_neg hemp] at hle
      rcases List.mem_cons.mp hle with rfl | hrec
      · exact no_newline_append _ _ hline1 (by decide)
      · refine ih ces (level + 1) ?_ line hrec
        intro x hx seg hseg
        exact hsegs (name :: x) (cons_mem_pathsE_of_sub es name ces x hees hx) seg
          (List.mem_cons_of_mem _ hseg)

theorem depthE_build_lt_treeFuel (names : List String) :
    depthE (buildEntries names []) < treeFuel names := by
  have h := depthE_buildEntries_le names []
  have h0 : depthE ([] : List (String × Trie)) = 0 := by simp [depthE]
  rw [h0] at h
  unfold treeFuel
  omega

theorem pathsE_build_ne_nil (names : List String) (hne : names ≠ []) :
    pathsE (buildEntries names []) ≠ [] := by
  cases names with
  | nil => exact absurd rfl hne
  | cons n rest =>
    cases hsp : pySplit '.' n with
    | nil => exact absurd hsp (pySplit_ne_nil '.' n)
    | cons s0 srest =>
      have hx : [s0] ∈ pathsE (buildEntries (n :: rest) []) := by
        rw [mem_pathsE_buildEntries]
        refine Or.inr ⟨n, List.mem_cons_self _ _, by simp, ?_⟩
        rw [hsp]
        exact List.cons_prefix_cons.mpr ⟨rfl, List.nil_prefix⟩
      intro hcontra
      rw [hcontra] at hx
      cases hx

/-- C8: the claim states that for every set of unique dotted names the
renderer output, split on newlines, has exactly as many lines as there are
distinct segment-path prefixes. This fails at the empty set: the renderer
joins zero lines into the empty string, which splits on newlines into one
(empty) line, while the empty set has zero distinct segment-path prefixes. -/
theorem claim_C8_counterexample :
    (pySplit '\n' (generateProjectTree [])).length = 1 ∧
    distinctPrefixCount ([] : List String) = 0 ∧
    (pySplit '\n' (generateProjectTree [])).length ≠
      distinctPrefixCount ([] : List String) :=
  ⟨by decide, by decide, by decide⟩

/-- C8 amended: for every nonempty set of unique newline-free dotted names,
the renderer output split on newlines has exactly as many lines as there
are distinct segment-path prefixes across the names, and rendering is
deterministic and order-independent: any permutation of the input names
produces character-identical output. -/
theorem claim_C8 (names names2 : List String) (hne : names ≠ [])
    (_hnodup : names.Nodup) (hnl : ∀ n ∈ names, '\n' ∉ n.data)
    (hperm : List.Perm names names2) :
    (pySplit '\n' (generateProjectTree names)).length = distinctPrefixCount names ∧
    generateProjectTree names = generateProjectTree names2 := by
  have hdepth : depthE (buildEntries names []) < treeFuel names :=
    depthE_build_lt_treeFuel names
  constructor
  · unfold generateProjectTree
    rw [pySplit_pyJoin '\n' _ ?lne ?lnl]
    case lne =>
      intro hcontra
      have hlen := length_processTreeDict (treeFuel names) (buildEntries names []) 0 hdepth
      rw [hcontra] at hlen
      simp only [List.length_nil] at hlen
      have hsz := sizeE_eq_length_pathsE (buildEntries names [])
      rw [← hlen] at hsz
      exact pathsE_build_ne_nil names hne (List.length_eq_zero.mp hsz.symm)
    case lnl =>
      exact processTreeDict_no_newline (treeFuel names) (buildEntries names []) 0
        (no_newline_segs names hnl)
    rw [length_processTreeDict _ _ _ hdepth, sizeE_eq_length_pathsE,
        ← distinctPrefixCount_eq]
  · unfold generateProjectTree
    have htf : treeFuel names = treeFuel names2 := by
      unfold treeFuel
      rw [List.Perm.sum_eq (List.Perm.map _ hperm)]
    rw [← htf]
    have hrender := render_eq_of_paths (treeFuel names) (buildEntries names [])
      (buildEntries names2 []) 0
      (nodup_pathsE_buildEntries names [] (by simp [pathsE]))
      (nodup_pathsE_buildEntries names2 [] (by simp [pathsE]))
      (by
        intro x
        rw [mem_pathsE_buildEntries, mem_pathsE_buildEntries]
        constructor
        · rintro (h | ⟨n, hn, hx⟩)
          · exact Or.inl h
          · exact Or.inr ⟨n, hperm.mem_iff.mp hn, hx⟩
        · rintro (h | ⟨n, hn, hx⟩)
          · exact Or.inl h
          · exact Or.inr ⟨n, hperm.mem_iff.mpr hn, hx⟩)
      hdepth
      (htf ▸ depthE_build_lt_treeFuel names2)
    rw [hrender]

theorem claim_C8_witness :
    (pySplit '\n' (generateProjectTree ["b.x", "a", "b.a"])).length =
      distinctPrefixCount ["b.x", "a", "b.a"] ∧
    generateProjectTree ["b.x", "a", "b.a"] = generateProjectTree ["a", "b.a", "b.x"] :=
  claim_C8 ["b.x", "a", "b.a"] ["a", "b.a", "b.x"] (by decide) (by decide)
    (by decide) (by decide)

end LazyNote
